import Mathlib

/-!
# Shallow embedding of the spider-solver pyramid-solitaire core

This file embeds the core of the `spider_solver` Python package
(`card.py`, `stack.py`, `flat_board.py`, the validation of
`board.py::Board.__init__`, and the search loop of `game.py::simulate`)
as executable Lean definitions, and proves or refutes the specification
claims about them.

Modelling conventions:
* Python objects are modelled as immutable structures; a mutating method
  becomes a function returning the new state.  A method that can raise
  returns the error string together with the state at the moment the
  exception propagates (Python leaves the object partially mutated).
* Python `Card` objects are compared by identity (`is`, default `__eq__`).
  Every card the program creates is a distinct object; we give each card a
  `uid` so that structural equality of the model coincides with Python
  object identity.
* Python `set` iteration order is unspecified.  Wherever the code iterates
  over a set we iterate in a fixed canonical order and note the fact; for
  the determinism claim the adversarial order is injected explicitly as a
  permutation oracle.
* Machine integers are `Nat`/`Int`; Python's `%` on `int` is `Int.emod`
  composed with `Int.toNat` where the result is used as an index.
-/

/-- A playing card.  Mirrors `card.py::Card`: `num` is the face value,
`row`/`col` the optional board position (`none` means "in the stack").
`uid` models Python object identity: the program never creates two cards
that are the same object, and all comparisons on cards in the source are
identity comparisons. -/
structure Card where
  num : Nat
  uid : Nat
  row : Option Nat
  col : Option Nat
deriving DecidableEq, Repr

/-- Default card, used only as an unreachable fallback for total indexing. -/
def defaultCard : Card := { num := 0, uid := 1000, row := none, col := none }

/-- `Card.match`: `(13 - self.num) or 13`.  For a king (13) the Python
expression `13 - 13 = 0` is falsy, so the result is 13; otherwise it is
`13 - num` (an `int`, possibly negative for out-of-range face values). -/
def Card.matchNum (c : Card) : Int :=
  if (13 : Int) - c.num = 0 then 13 else (13 : Int) - c.num

/-- `Card.on_board`: both `row` and `col` are set. -/
def Card.onBoard (c : Card) : Bool :=
  c.row.isSome && c.col.isSome

/-- `types.py::MoveType`. -/
inductive MoveType where
  | BoardMatch
  | BoardStackMatch
  | StackMatch
deriving DecidableEq, Repr

/-- `types.py::Move`: `(MoveType, draws, cards)`.  The draw counts produced
by the program are non-negative (`max(idx, 0)` or a Python `%` with a
positive modulus), so `Nat` is faithful. -/
def Move : Type := MoveType × Nat × List Card

instance : DecidableEq Move := by
  unfold Move
  infer_instance

def Move.mtype (m : Move) : MoveType := m.1

def Move.draws (m : Move) : Nat := m.2.1

def Move.mcards (m : Move) : List Card := m.2.2

/-! ## Stack (`stack.py`) -/

/-- `stack.py::Stack`: a list of optional cards (the trailing `None` is the
empty sentinel appended by `__init__`) plus the index of the visible card. -/
structure Stack where
  cards : List (Option Card)
  idx : Nat
deriving DecidableEq, Repr

/-- `Stack.__init__`: append the `None` sentinel, start at index 0. -/
def Stack.ofCards (cs : List Card) : Stack :=
  { cards := cs.map some ++ [none], idx := 0 }

/-- `Stack.from_ints`: one fresh `Card` per value.  The `uid` records the
position, modelling the distinct Python objects. -/
def Stack.fromInts (ns : List Nat) : Stack :=
  Stack.ofCards (ns.enum.map fun p => { num := p.2, uid := p.1, row := none, col := none })

/-- `Stack.peek`: `cards[idx]` (total via `getD`; the index is in range in
every state the program reaches, see the claim C10 theorem). -/
def Stack.peek (s : Stack) : Option Card :=
  s.cards.getD s.idx none

/-- `Stack.prev`: the card before the visible one, `None` at index 0. -/
def Stack.prev (s : Stack) : Option Card :=
  if s.idx = 0 then none else s.cards.getD (s.idx - 1) none

/-- `Stack.draw(count)`: advance the index modulo the list length. -/
def Stack.draw (s : Stack) (count : Nat) : Stack :=
  { s with idx := (s.idx + count) % s.cards.length }

/-- `Stack.get_card_at_draws(draws)`: `cards[(idx + draws) % len(cards)]`,
with Python's floor-mod on a possibly negative argument. -/
def Stack.getCardAtDraws (s : Stack) (draws : Int) : Option Card :=
  s.cards.getD ((((s.idx : Int) + draws) % (s.cards.length : Int)).toNat) none

/-- `Stack.num_in_stack(num)`: draw distances at which `num` is visible;
`-1` flags the `prev` card. -/
def Stack.numInStack (s : Stack) (n : Int) : List Int :=
  let currOrder : List (Option Card) :=
    if s.idx = 0 then s.cards
    else s.cards.drop s.idx ++ s.cards.take (s.idx - 1)
  let prevPart : List Int :=
    match s.prev with
    | some c => if (c.num : Int) = n then [(-1 : Int)] else []
    | none => []
  prevPart ++ currOrder.enum.filterMap fun p =>
    match p.2 with
    | some c => if (c.num : Int) = n then some (p.1 : Int) else none
    | none => none

/-- One iteration of the pair scan of `Stack.get_stack_moves` at index
`i`: look at the pair `(cards[i], cards[i+1])`, produce a lone-king move
when the right card is a king, a pair move when the left card's match
value equals the right card's rank, tagged with the draw distance of the
right card. -/
def Stack.pairMoveAt (s : Stack) (i : Nat) : Option Move :=
  match s.cards.getD (i + 1) none with
  | some rc =>
    if rc.num = 13 then
      some (MoveType.StackMatch,
        ((((i : Int) + 1 - s.idx) % (s.cards.length : Int)).toNat), [rc])
    else
      match s.cards.getD i none with
      | some lc =>
        if lc.matchNum = (rc.num : Int) then
          some (MoveType.StackMatch,
            ((((i : Int) + 1 - s.idx) % (s.cards.length : Int)).toNat), [lc, rc])
        else none
      | none => none
  | none => none

/-- `Stack.get_stack_moves`: scan the consecutive pairs
`zip(cards, cards[1:])` (the sentinel appears only as the final right-hand
element; there is no wrap-around pair).  Each index yields at most one
move, so the Python set equals this list. -/
def Stack.getStackMoves (s : Stack) : List Move :=
  (List.range (s.cards.length - 1)).filterMap s.pairMoveAt

/-- One iteration of the removal loop of `Stack.remove_cards`: shift the
index back when removing the `prev` card, then delete the first (unique)
occurrence of the card. -/
def Stack.removeOne (s : Stack) (c : Card) : Stack :=
  let s1 := if s.prev = some c then { s with idx := s.idx - 1 } else s
  { s1 with cards := s1.cards.erase (some c) }

/-- `Stack.remove_cards(cards)`: validate every card against the current
window first (raising `IllegalMove` before any mutation), then remove them
one by one. -/
def Stack.removeCards (s : Stack) (cs : List Card) : Except String Stack :=
  if cs.all fun c => s.prev = some c ∨ s.peek = some c then
    .ok (cs.foldl Stack.removeOne s)
  else
    .error "IllegalMove: Unable to remove card, it is not visible from the stack"

/-! ## Static pyramid tables (`flat_board.py`) -/

/-- `flat_board.py::blockers_map`: for each position, the set of positions
it (transitively) blocks, i.e. its ancestors in the pyramid. -/
def blockersMap : Nat → Finset Nat
  | 0 => ∅
  | 1 => {0}
  | 2 => {0}
  | 3 => {1, 0}
  | 4 => {1, 2, 0}
  | 5 => {2, 0}
  | 6 => {3, 1, 0}
  | 7 => {3, 4, 1, 2, 0}
  | 8 => {4, 5, 1, 2, 0}
  | 9 => {5, 2, 0}
  | 10 => {6, 3, 1, 0}
  | 11 => {6, 7, 3, 4, 1, 2, 0}
  | 12 => {7, 8, 3, 4, 5, 1, 2, 0}
  | 13 => {8, 9, 4, 5, 1, 2, 0}
  | 14 => {9, 5, 2, 0}
  | 15 => {10, 6, 3, 1, 0}
  | 16 => {10, 11, 6, 7, 3, 4, 1, 2, 0}
  | 17 => {11, 12, 6, 7, 8, 3, 4, 5, 1, 2, 0}
  | 18 => {12, 13, 7, 8, 9, 3, 4, 5, 1, 2, 0}
  | 19 => {13, 14, 8, 9, 4, 5, 1, 2, 0}
  | 20 => {14, 9, 5, 2, 0}
  | 21 => {15, 10, 6, 3, 1, 0}
  | 22 => {15, 16, 10, 11, 6, 7, 3, 4, 1, 2, 0}
  | 23 => {16, 17, 10, 11, 12, 6, 7, 8, 3, 4, 5, 1, 2, 0}
  | 24 => {17, 18, 11, 12, 13, 6, 7, 8, 9, 3, 4, 5, 1, 2, 0}
  | 25 => {18, 19, 12, 13, 14, 7, 8, 9, 3, 4, 5, 1, 2, 0}
  | 26 => {19, 20, 13, 14, 8, 9, 4, 5, 1, 2, 0}
  | 27 => {20, 14, 9, 5, 2, 0}
  | _ => ∅

/-- `flat_board.py::blocks_cards_map`: the (up to two) direct parents a
position blocks. -/
def blocksCardsMap : Nat → Option Nat × Option Nat
  | 0 => (none, none)
  | 1 => (some 0, none)
  | 2 => (some 0, none)
  | 3 => (some 1, none)
  | 4 => (some 1, some 2)
  | 5 => (some 2, none)
  | 6 => (some 3, none)
  | 7 => (some 3, some 4)
  | 8 => (some 4, some 5)
  | 9 => (some 5, none)
  | 10 => (some 6, none)
  | 11 => (some 6, some 7)
  | 12 => (some 7, some 8)
  | 13 => (some 8, some 9)
  | 14 => (some 9, none)
  | 15 => (some 10, none)
  | 16 => (some 10, some 11)
  | 17 => (some 11, some 12)
  | 18 => (some 12, some 13)
  | 19 => (some 13, some 14)
  | 20 => (some 14, none)
  | 21 => (some 15, none)
  | 22 => (some 15, some 16)
  | 23 => (some 16, some 17)
  | 24 => (some 17, some 18)
  | 25 => (some 18, some 19)
  | 26 => (some 19, some 20)
  | 27 => (some 20, none)
  | _ => (none, none)

/-- `flat_board.py::blocked_by_map`: for each position, the set of
positions blocking it, i.e. its descendants in the pyramid. -/
def blockedByMap : Nat → Finset Nat
  | 0 => {1, 2, 3, 4, 5, 6, 7, 8, 9, 10, 11, 12, 13, 14, 15, 16, 17, 18, 19,
          20, 21, 22, 23, 24, 25, 26, 27}
  | 1 => {3, 4, 6, 7, 8, 10, 11, 12, 13, 15, 16, 17, 18, 19, 21, 22, 23, 24, 25, 26}
  | 2 => {4, 5, 7, 8, 9, 11, 12, 13, 14, 16, 17, 18, 19, 20, 22, 23, 24, 25, 26, 27}
  | 3 => {6, 7, 10, 11, 12, 15, 16, 17, 18, 21, 22, 23, 24, 25}
  | 4 => {7, 8, 11, 12, 13, 16, 17, 18, 19, 22, 23, 24, 25, 26}
  | 5 => {8, 9, 12, 13, 14, 17, 18, 19, 20, 23, 24, 25, 26, 27}
  | 6 => {10, 11, 15, 16, 17, 21, 22, 23, 24}
  | 7 => {11, 12, 16, 17, 18, 22, 23, 24, 25}
  | 8 => {12, 13, 17, 18, 19, 23, 24, 25, 26}
  | 9 => {13, 14, 18, 19, 20, 24, 25, 26, 27}
  | 10 => {15, 16, 21, 22, 23}
  | 11 => {16, 17, 22, 23, 24}
  | 12 => {17, 18, 23, 24, 25}
  | 13 => {18, 19, 24, 25, 26}
  | 14 => {19, 20, 25, 26, 27}
  | 15 => {21, 22}
  | 16 => {22, 23}
  | 17 => {23, 24}
  | 18 => {24, 25}
  | 19 => {25, 26}
  | 20 => {26, 27}
  | 21 => ∅
  | 22 => ∅
  | 23 => ∅
  | 24 => ∅
  | 25 => ∅
  | 26 => ∅
  | 27 => ∅
  | _ => ∅

/-! ## FlatBoard (`flat_board.py`) -/

/-- `flat_board.py::FlatBoard`.  `cards` is the flat 28-entry arena (the
list itself is never shrunk; removal is tracked through `leafIdxs`).
`cardCounts` is the `_card_counts` dict as a function (only keys 1..13 are
ever populated); counts are `Int` because Python integers go below zero on
over-decrement. -/
structure FlatBoard where
  cards : List Card
  stack : Stack
  leafIdxs : Finset Nat
  moves : Nat
  completed : Bool
  cardCounts : Nat → Int
  errorHandle : Bool

/-- The flattened board cards built by `FlatBoard.__init__`: row-major
order, `uid` equal to the flat index (distinct Python objects). -/
def boardCards (rows : List (List Nat)) : List Card :=
  ((rows.enum.flatMap fun r => r.2.enum.map fun c => (r.1, c.1, c.2)).enum.map
    fun p => { num := p.2.2.2, uid := p.1, row := some p.2.1, col := some p.2.2.1 })

/-- `FlatBoard.__init__(rows, stack, error_handle)` (performs no
validation). -/
def mkFlatBoard (rows : List (List Nat)) (stack : List Nat) (errorHandle : Bool) : FlatBoard :=
  { cards := boardCards rows
    stack := Stack.fromInts stack
    leafIdxs := {21, 22, 23, 24, 25, 26, 27}
    moves := 0
    completed := false
    cardCounts := fun k => if 1 ≤ k ∧ k ≤ 13 then 4 else 0
    errorHandle := errorHandle }

/-- The ascending list of a set of positions.  Every position the program
ever puts into a leaf set or candidate set lies in 0..27, so enumerating
`range 28` is the ascending enumeration of the set. -/
def ascList (s : Finset Nat) : List Nat :=
  (List.range 28).filter fun i => i ∈ s

/-- `FlatBoard.leaves`, iterated in ascending index order (the Python set
iteration order is unspecified; every use below is order-insensitive up to
which element of a set of equally-eligible moves an early return picks). -/
def FlatBoard.leaves (b : FlatBoard) : List Card :=
  (ascList b.leafIdxs).map fun i => b.cards.getD i defaultCard

/-- The set `solo_cards` = dict keys (1..13) whose remaining count is 1. -/
def FlatBoard.soloCards (b : FlatBoard) : Finset Nat :=
  (Finset.range 14).filter fun k => 0 < k ∧ b.cardCounts k = 1

/-- Decrement one entry of `_card_counts`. -/
def decCount (f : Nat → Int) (n : Nat) : Nat → Int :=
  fun k => if k = n then f k - 1 else f k

/-- The two candidate parents contributed by a removed index
(`blocks_cards_map[card_idx]`, skipping `None`). -/
def parentCandidates (i : Nat) : Finset Nat :=
  (match (blocksCardsMap i).1 with | some p => {p} | none => ∅) ∪
  (match (blocksCardsMap i).2 with | some p => {p} | none => ∅)

/-- The first loop of `FlatBoard.remove_cards`: remove each index from the
leaf set (a Python `set.remove`, raising `KeyError` when absent and leaving
the earlier mutations in place), set `completed` when index 0 goes, and
collect the blocked parents as leaf candidates. -/
def removeLoop : List Nat → Finset Nat → Bool → Finset Nat →
    Option String × Finset Nat × Bool × Finset Nat
  | [], lf, comp, cand => (none, lf, comp, cand)
  | i :: rest, lf, comp, cand =>
    if i ∈ lf then
      removeLoop rest (lf.erase i) (comp || i == 0) (cand ∪ parentCandidates i)
    else
      (some "KeyError", lf, comp, cand)

/-- `FlatBoard.remove_cards(cards_to_remove)`.  Returns the error (if any)
together with the state at the moment the exception propagates. -/
def FlatBoard.removeCards (b : FlatBoard) (csToRemove : List Card) : Option String × FlatBoard :=
  if b.errorHandle && !(csToRemove.all fun c => b.leaves.contains c) then
    (some "IllegalMove: Card is blocked by other cards", b)
  else
    match csToRemove.mapM (fun c => b.cards.findIdx? fun x => x == c) with
    | none => (some "ValueError: card not on the board", b)
    | some cardIdxs =>
      match removeLoop cardIdxs b.leafIdxs b.completed ∅ with
      | (some e, lf, comp, _) =>
        (some e, { b with leafIdxs := lf, completed := comp })
      | (none, lf, comp, candidates) =>
        let candBlockers := candidates.biUnion blockersMap
        let finalCands := ascList (candidates \ candBlockers)
        let lf2 := finalCands.foldl
          (fun l c => if blockedByMap c ∩ l = ∅ then insert c l else l) lf
        let counts := csToRemove.foldl (fun f c => decCount f c.num) b.cardCounts
        (none, { b with leafIdxs := lf2, completed := comp, cardCounts := counts })

/-- `FlatBoard.play_move(move)`.  Returns the error (if any) together with
the state at the moment the exception propagates; on success the second
component is the new board. -/
def FlatBoard.playMove (b : FlatBoard) (m : Move) : Option String × FlatBoard :=
  let draws := m.draws
  let b1 := if draws ≠ 0 then
      { b with stack := b.stack.draw draws, moves := b.moves + draws }
    else b
  match m.mtype, m.mcards with
  | MoveType.BoardMatch, cs =>
    (match b1.removeCards cs with
     | (some e, b2) => (some e, b2)
     | (none, b2) => (none, { b2 with moves := b2.moves + 1 }))
  | MoveType.BoardStackMatch, [c1, c2] =>
    if b1.errorHandle && !(c1.onBoard ^^ c2.onBoard) then
      (some "SpiderException: Expected one card to be on board and other on stack", b1)
    else
      let boardCard := if !c1.onBoard then c2 else c1
      let stackCard := if !c1.onBoard then c1 else c2
      if b1.errorHandle && !(b1.stack.peek == some stackCard) &&
          !(b1.stack.prev == some stackCard) then
        (some "IllegalMove: Unable to match a stack card that is not visible", b1)
      else
        match b1.stack.removeCards [stackCard] with
        | .error e => (some e, b1)
        | .ok st =>
          let b2 := { b1 with stack := st,
                              cardCounts := decCount b1.cardCounts stackCard.num }
          match b2.removeCards [boardCard] with
          | (some e, b3) => (some e, b3)
          | (none, b3) => (none, { b3 with moves := b3.moves + 1 })
  | MoveType.StackMatch, cs =>
    (match b1.stack.removeCards cs with
     | .error e => (some e, b1)
     | .ok st =>
       match cs with
       | [] => (some "IndexError: tuple index out of range", { b1 with stack := st })
       | [c1, c2] =>
         (none, { b1 with stack := st,
                          cardCounts := decCount (decCount b1.cardCounts c1.num) c2.num,
                          moves := b1.moves + 1 })
       | c1 :: _ =>
         (none, { b1 with stack := st,
                          cardCounts := decCount b1.cardCounts c1.num,
                          moves := b1.moves + 1 }))
  | MoveType.BoardStackMatch, _ =>
    (some "IllegalMove: Unmatched move", b1)

/-- Add a move to the accumulator unless already present (Python
`set.add`; the accumulator keeps first-insertion order). -/
def addMoveIfNew (acc : List Move) (m : Move) : List Move :=
  if acc.contains m then acc else acc ++ [m]

/-- Inner loop of the table-match scan of `FlatBoard.get_moves`: for one
leaf, walk the potential partners `pot` with `pot.match == leaf.num`,
normalise each pair to (lower, higher), early-return the pair when the
lower rank is solo, otherwise accumulate it and set `moves_on_table`. -/
def tableScanInner (solo : Finset Nat) (lf : Card) :
    List Card → List Move → Bool → Option Move × List Move × Bool
  | [], acc, mot => (none, acc, mot)
  | p :: rest, acc, mot =>
    let lo := if lf.num > p.num then p else lf
    let hi := if lf.num > p.num then lf else p
    if lo.num ∈ solo then
      (some (MoveType.BoardMatch, 0, [lo, hi]), acc, mot)
    else
      tableScanInner solo lf rest (addMoveIfNew acc (MoveType.BoardMatch, 0, [lo, hi])) true

/-- Outer loop of the table-match scan over all leaves. -/
def tableScan (solo : Finset Nat) (allLeaves : List Card) :
    List Card → List Move → Bool → Option Move × List Move × Bool
  | [], acc, mot => (none, acc, mot)
  | lf :: rest, acc, mot =>
    match tableScanInner solo lf
        (allLeaves.filter fun p => p.matchNum = (lf.num : Int)) acc mot with
    | (some m, acc1, mot1) => (some m, acc1, mot1)
    | (none, acc1, mot1) => tableScan solo allLeaves rest acc1 mot1

/-- Inner loop of the board-stack scan of `FlatBoard.get_moves`: for one
leaf, walk the draw distances of its match rank; a solo leaf with a
visible partner (distance ≤ 0) is early-returned as a forced move (after
the sentinel sanity check), otherwise the match is accumulated. -/
def bsmScanInner (st : Stack) (solo : Finset Nat) (lf : Card) :
    List Int → List Move → Except String (Option Move × List Move)
  | [], acc => .ok (none, acc)
  | d :: rest, acc =>
    if lf.num ∈ solo ∧ d ≤ 0 then
      match st.getCardAtDraws d with
      | none => .error "SpiderException: Incorrectly matched the empty spot in the stack"
      | some sc => .ok (some (MoveType.BoardStackMatch, (max d 0).toNat, [lf, sc]), acc)
    else
      bsmScanInner st solo lf rest
        (addMoveIfNew acc
          (MoveType.BoardStackMatch, (max d 0).toNat,
            [lf, (st.getCardAtDraws d).getD defaultCard]))

/-- Outer loop of the board-stack scan over all leaves. -/
def bsmScan (st : Stack) (solo : Finset Nat) :
    List Card → List Move → Except String (Option Move × List Move)
  | [], acc => .ok (none, acc)
  | lf :: rest, acc =>
    match bsmScanInner st solo lf (st.numInStack lf.matchNum) acc with
    | .error e => .error e
    | .ok (some m, acc1) => .ok (some m, acc1)
    | .ok (none, acc1) => bsmScan st solo rest acc1

/-- `FlatBoard.get_moves`.  The Python function returns a `set`; the model
returns the same moves as a list in canonical generation order.  The early
returns pick the first eligible element in that canonical order (Python
picks an unspecified one). -/
def FlatBoard.getMoves (b : FlatBoard) : Except String (List Move) :=
  let lvs := b.leaves
  match lvs.find? (fun c => c.num == 13) with
  | some king => .ok [(MoveType.BoardMatch, 0, [king])]
  | none =>
    let solo := b.soloCards
    match tableScan solo lvs lvs [] false with
    | (some m, _, _) => .ok [m]
    | (none, acc, mot) =>
      match bsmScan b.stack solo lvs acc with
      | .error e => .error e
      | .ok (some m, _) => .ok [m]
      | .ok (none, acc2) =>
        let stackMoves := b.stack.getStackMoves
        match stackMoves.find? (fun m =>
            m.draws == 0 &&
            (decide ((m.mcards.headD defaultCard).num ∈ solo) ||
              (m.mcards.headD defaultCard).num == 13) &&
            !mot) with
        | some m => .ok [m]
        | none => .ok (stackMoves.foldl addMoveIfNew acc2)

/-! ## Board construction validation (`board.py::Board.__init__`) -/

/-- The `_validate` block of `Board.__init__(rows, stack)`: row count, row
lengths, total count, then `Counter` checks (13 distinct values, each with
count 4).  `allVals.dedup` enumerates the distinct `Counter` keys. -/
def validateBoard (rows : List (List Nat)) (stack : List Nat) : Except String Unit :=
  if rows.length ≠ 7 then
    .error "Exactly 7 rows of cards are required"
  else if rows.enum.any fun r => r.2.length ≠ r.1 + 1 then
    .error "Number of cards per row needs to match the 1-indexed row number"
  else if (rows.map List.length).sum + stack.length ≠ 52 then
    .error "Expected 52 cards"
  else
    let allVals := rows.flatten ++ stack
    if allVals.dedup.length ≠ 13 then
      .error "Expected 13 sorts"
    else if allVals.dedup.any fun v => allVals.count v ≠ 4 then
      .error "Not all sorts are 4 counts"
    else
      .ok ()

/-! ## Solver (`game.py::simulate`) -/

/-- Injective encoding of one card's contribution to the sort key string
`str(m[2])` (the card's face value and position description determine that
string, and vice versa). -/
def cardKey (c : Card) : List Nat :=
  [c.num, (match c.row with | none => 0 | some r => r + 1),
   (match c.col with | none => 0 | some cl => cl + 1)]

/-- The sort key `(m[1], str(m[2]))` of `game.py::simulate`.  Two moves get
equal keys exactly when they agree on draw count and on the face value and
position description of each card; the order on distinct keys is a fixed
total order (Python's string order differs, but none of the claims depend
on which total order is used on distinct keys). -/
def moveKey (m : Move) : Nat × List Nat :=
  (m.draws, m.mcards.flatMap cardKey)

/-- Strict lexicographic order on `List Nat`. -/
def listLtNat : List Nat → List Nat → Bool
  | [], [] => false
  | [], _ :: _ => true
  | _ :: _, [] => false
  | a :: as, b :: bs => a < b || (a == b && listLtNat as bs)

/-- Non-strict total order on move keys. -/
def keyLE (m1 m2 : Move) : Bool :=
  (moveKey m1).1 < (moveKey m2).1 ||
    ((moveKey m1).1 == (moveKey m2).1 &&
      (listLtNat (moveKey m1).2 (moveKey m2).2 || (moveKey m1).2 == (moveKey m2).2))

/-- Stable insertion into a `keyLE`-sorted list: the new element goes after
every element whose key is `≤` its own. -/
def insertMove (m : Move) : List Move → List Move
  | [] => [m]
  | x :: xs => if keyLE x m then x :: insertMove m xs else m :: x :: xs

/-- Stable sort by `moveKey`, mirroring `sorted(..., key=lambda m: (m[1], str(m[2])))`. -/
def sortMoves (l : List Move) : List Move :=
  l.foldl (fun acc m => insertMove m acc) []

/-- The canonical state signature `FlatBoard.state` used for transposition
dedup: move count, sorted leaf indexes, stack index, stack card values.
(The Python string joins these fields with pipes and sorts the leaf
indexes as strings; both encodings are injective in the same data, so
equality of signatures agrees.) -/
def FlatBoard.stateKey (b : FlatBoard) : Nat × List Nat × Nat × List Nat :=
  (b.moves, ascList b.leafIdxs, b.stack.idx,
   b.stack.cards.filterMap fun oc => oc.map Card.num)

/-- A frontier entry `(board.moves, moves_made, board)`. -/
abbrev SimEntry : Type := Nat × List Nat × FlatBoard

def SimEntry.cost (e : SimEntry) : Nat := e.1

def SimEntry.path (e : SimEntry) : List Nat := e.2.1

def SimEntry.board (e : SimEntry) : FlatBoard := e.2.2

/-- Heap order: compare `(moves, moves_made)` lexicographically (two
distinct live entries never tie, because each extension records its own
1-based move index). -/
def entryLt (e1 e2 : SimEntry) : Bool :=
  e1.cost < e2.cost || (e1.cost == e2.cost && listLtNat e1.path e2.path)

/-- `heappop`: remove the least entry. -/
def popMin : List SimEntry → Option (SimEntry × List SimEntry)
  | [] => none
  | e :: rest =>
    let best := rest.foldl (fun p x => if entryLt x p.1 then (x, p.2 ++ [p.1]) else (p.1, p.2 ++ [x])) (e, ([] : List SimEntry))
    some best

/-- The inner candidate loop of `simulate`: walk the sorted moves with
their 0-based indexes, `break` on the width limit or the bound check, play
each surviving candidate on a copy, drop already-seen states, and collect
the rest.  (`play_move` never raises on a move produced by `get_moves`;
the model simply keeps the returned state.) -/
def expandLoop (bound maxMoves : Nat) (b : FlatBoard) (path : List Nat) :
    List (Nat × Move) → Nat → List (Nat × List Nat × Nat × List Nat) →
    List SimEntry → List SimEntry × List (Nat × List Nat × Nat × List Nat)
  | [], _, seen, acc => (acc, seen)
  | (idx, mv) :: rest, movesPlayed, seen, acc =>
    if mv.draws > 0 ∧ movesPlayed > maxMoves then
      (acc, seen)
    else if mv.draws + b.moves > bound then
      (acc, seen)
    else
      let bc := (b.playMove mv).2
      if bc.stateKey ∈ seen then
        expandLoop bound maxMoves b path rest (movesPlayed + 1) seen acc
      else
        expandLoop bound maxMoves b path rest (movesPlayed + 1)
          (bc.stateKey :: seen) (acc ++ [(bc.moves, path ++ [idx + 1], bc)])

/-- All pairwise-distinct sort keys? (The stable sort produces an
order-independent result exactly on such candidate lists.) -/
def distinctKeys (l : List Move) : Bool :=
  decide (l.map moveKey).Nodup

/-- `game.py::simulate`, fuel-bounded.  `oracle step l` models the
unspecified iteration order of the Python move set: it is applied to the
canonical candidate list before the stable sort.  Returns the move-index
path of the first popped cleared board (`None` models fuel exhaustion, an
exhausted frontier, or a `get_moves` exception), together with a flag that
is `true` when every expanded candidate list had pairwise-distinct sort
keys. -/
def simulateLoop (bound topMoves firstTopMoves firstGames : Nat)
    (oracle : Nat → List Move → List Move) :
    Nat → List SimEntry → List (Nat × List Nat × Nat × List Nat) → Nat →
    Option (List Nat) × Bool
  | 0, _, _, _ => (none, true)
  | fuel + 1, frontier, seen, step =>
    match popMin frontier with
    | none => (none, true)
    | some (e, rest) =>
      if e.board.completed then
        (some e.path, true)
      else
        match e.board.getMoves with
        | .error _ => (none, true)
        | .ok canonical =>
          let sortedMoves := sortMoves (oracle step canonical)
          if sortedMoves.isEmpty then
            simulateLoop bound topMoves firstTopMoves firstGames oracle fuel rest seen (step + 1)
          else
            let maxMoves := if e.board.moves ≤ firstGames then firstTopMoves else topMoves
            let (pushed, seen2) :=
              expandLoop bound maxMoves e.board e.path sortedMoves.enum 0 seen []
            let res := simulateLoop bound topMoves firstTopMoves firstGames oracle fuel
              (rest ++ pushed) seen2 (step + 1)
            (res.1, res.2 && distinctKeys canonical)

/-- Top-level `simulate(initial_board, known_min_moves, ...)`: seed the
frontier with the initial board at cost 0. -/
def simulate (bound topMoves firstTopMoves firstGames : Nat)
    (oracle : Nat → List Move → List Move) (fuel : Nat) (b : FlatBoard) :
    Option (List Nat) × Bool :=
  simulateLoop bound topMoves firstTopMoves firstGames oracle fuel [(0, [], b)] [] 0

/-! ## Claim C5: `Stack.get_stack_moves` pair scan -/

/-- Claim C5 as stated: the scan covers all consecutive pairs of (real)
stack cards in draw order *including the wrap-around pair from the last
card back to the first*, producing a candidate for every rank-sum-13 pair
and every lone king encountered in second position. -/
def claimC5Stated (s : Stack) : Prop :=
  2 ≤ (s.cards.filterMap id).length →
    ∀ i < (s.cards.filterMap id).length,
      (((s.cards.filterMap id).getD ((i + 1) % (s.cards.filterMap id).length) defaultCard).num = 13 →
        ∃ m ∈ s.getStackMoves,
          m.mtype = MoveType.StackMatch ∧
          m.mcards = [(s.cards.filterMap id).getD ((i + 1) % (s.cards.filterMap id).length) defaultCard]) ∧
      (((s.cards.filterMap id).getD i defaultCard).num +
          ((s.cards.filterMap id).getD ((i + 1) % (s.cards.filterMap id).length) defaultCard).num = 13 →
        ∃ m ∈ s.getStackMoves,
          m.mtype = MoveType.StackMatch ∧
          m.mcards = [(s.cards.filterMap id).getD i defaultCard,
                      (s.cards.filterMap id).getD ((i + 1) % (s.cards.filterMap id).length) defaultCard])

/-- C5 is false on the code: for the stack `[6, 1, 7]` the wrap-around
pair (7, 6) sums to 13 but `get_stack_moves` returns no move at all —
`zip(cards, cards[1:])` never forms the pair from the last card back to
the first (the sentinel sits between them). -/
theorem C5_counterexample : ¬ claimC5Stated (Stack.fromInts [6, 1, 7]) := by
  unfold claimC5Stated
  decide

/-- C5 amended: `get_stack_moves` scans exactly the adjacent index pairs
(i, i+1) of the underlying list — the sentinel only ever appears as the
final right-hand element and there is no wrap-around pair.  It returns a
lone-king candidate for every king in second position and a pair candidate
for every adjacent pair of non-king cards whose ranks sum to 13, tagged
with the draw distance of the second card of the pair. -/
theorem C5_amended (s : Stack) (m : Move) :
    m ∈ s.getStackMoves ↔
      ∃ i rc, i + 1 < s.cards.length ∧ s.cards.getD (i + 1) none = some rc ∧
        m.draws = (((i : Int) + 1 - s.idx) % (s.cards.length : Int)).toNat ∧
        m.mtype = MoveType.StackMatch ∧
        ((rc.num = 13 ∧ m.mcards = [rc]) ∨
         (∃ lc, s.cards.getD i none = some lc ∧ lc.num ≠ 13 ∧ rc.num ≠ 13 ∧
            lc.num + rc.num = 13 ∧ m.mcards = [lc, rc])) := by
  obtain ⟨mt, d, cs⟩ := m
  unfold Stack.getStackMoves
  rw [List.mem_filterMap]
  constructor
  · rintro ⟨i, hir, heq⟩
    rw [List.mem_range] at hir
    unfold Stack.pairMoveAt at heq
    rcases hget : s.cards.getD (i + 1) none with _ | rc
    · rw [hget] at heq
      dsimp only at heq
      exact absurd heq (by simp)
    · rw [hget] at heq
      dsimp only at heq
      by_cases hk : rc.num = 13
      · rw [if_pos hk] at heq
        injection heq with h
        injection h with h1 hrest
        injection hrest with h2 h3
        subst h1
        subst h2
        subst h3
        exact ⟨i, rc, by omega, hget, rfl, rfl, Or.inl ⟨hk, rfl⟩⟩
      · rw [if_neg hk] at heq
        rcases hgl : s.cards.getD i none with _ | lc
        · rw [hgl] at heq
          dsimp only at heq
          exact absurd heq (by simp)
        · rw [hgl] at heq
          dsimp only at heq
          by_cases hm : lc.matchNum = (rc.num : Int)
          · rw [if_pos hm] at heq
            injection heq with h
            injection h with h1 hrest
            injection hrest with h2 h3
            subst h1
            subst h2
            subst h3
            have hns : lc.num ≠ 13 ∧ lc.num + rc.num = 13 := by
              unfold Card.matchNum at hm
              split at hm
              · exact absurd (by exact_mod_cast hm.symm : rc.num = 13) hk
              · constructor <;> omega
            exact ⟨i, rc, by omega, hget, rfl, rfl,
              Or.inr ⟨lc, hgl, hns.1, hk, hns.2, rfl⟩⟩
          · rw [if_neg hm] at heq
            exact absurd heq (by simp)
  · rintro ⟨i, rc, hlt, hget, hdraws, htype, hbranch⟩
    refine ⟨i, List.mem_range.mpr (by omega), ?_⟩
    simp only [Move.draws, Move.mtype, Move.mcards] at hdraws htype hbranch
    subst htype
    unfold Stack.pairMoveAt
    rw [hget]
    dsimp only
    rcases hbranch with ⟨hk, hcs⟩ | ⟨lc, hgl, hlne, hrne, hsum, hcs⟩
    · subst hcs
      rw [if_pos hk, hdraws]
    · subst hcs
      rw [if_neg hrne, hgl]
      dsimp only
      have hm : lc.matchNum = (rc.num : Int) := by
        unfold Card.matchNum
        rw [if_neg (by omega)]
        omega
      rw [if_pos hm, hdraws]

/-! ## Claim C8: construction validation -/

/-- The claim's notion of a well-formed configuration: 7 rows of lengths
1..7, 52 cards in total, and every rank 1..13 occurring exactly 4 times
across board and stack. -/
def wellFormedConfig (rows : List (List Nat)) (stack : List Nat) : Prop :=
  rows.length = 7 ∧
  (∀ i < rows.length, (rows.getD i []).length = i + 1) ∧
  (rows.map List.length).sum + stack.length = 52 ∧
  (∀ r ∈ Finset.Icc 1 13, (rows.flatten ++ stack).count r = 4)

/-- Claim C8 as stated: construction succeeds exactly on well-formed
configurations (in particular it fails whenever some rank 1..13 does not
occur exactly 4 times). -/
def claimC8Stated : Prop :=
  ∀ rows stack, validateBoard rows stack = .ok () ↔ wellFormedConfig rows stack

/-- A configuration using the bogus value 99 instead of rank 13: 13
distinct values, each occurring 4 times, so `Board.__init__` accepts it
even though rank 13 occurs 0 times. -/
def rows99 : List (List Nat) :=
  [[1], [1, 1], [1, 2, 2], [2, 2, 3, 3], [3, 3, 4, 4, 4], [4, 5, 5, 5, 5, 6],
   [6, 6, 6, 7, 7, 7, 7]]

def stack99 : List Nat :=
  [8, 8, 8, 8, 9, 9, 9, 9, 10, 10, 10, 10, 11, 11, 11, 11, 12, 12, 12, 12,
   99, 99, 99, 99]

/-- C8 is false on the code: the validation only checks that the `Counter`
has 13 distinct keys each with count 4 — it never pins the keys to the
ranks 1..13, so a deck with four 99s and no kings passes. -/
theorem C8_counterexample : ¬ claimC8Stated := by
  intro h
  have h99 := (h rows99 stack99).mp rfl
  have h13 := h99.2.2.2 13 (by decide)
  exact absurd h13 (by decide)

/-- C8 amended: construction fails eagerly on row-count, row-length or
total-count mismatch, and otherwise exactly when the multiset of values
does not consist of 13 distinct values each occurring exactly 4 times
(the values themselves are not constrained to be the ranks 1..13). -/
theorem C8_amended (rows : List (List Nat)) (stack : List Nat) :
    validateBoard rows stack = .ok () ↔
      rows.length = 7 ∧
      (∀ p ∈ rows.enum, p.2.length = p.1 + 1) ∧
      (rows.map List.length).sum + stack.length = 52 ∧
      (rows.flatten ++ stack).dedup.length = 13 ∧
      (∀ v ∈ rows.flatten ++ stack, (rows.flatten ++ stack).count v = 4) := by
  unfold validateBoard
  constructor
  · intro h
    dsimp only at h
    split at h
    · exact absurd h (by simp)
    · split at h
      · exact absurd h (by simp)
      · split at h
        · exact absurd h (by simp)
        · split at h
          · exact absurd h (by simp)
          · split at h
            · exact absurd h (by simp)
            · rename_i h7 hrow htot hded hcnt
              rw [List.any_eq_true] at hrow
              push_neg at h7 htot hded
              refine ⟨h7, ?_, htot, hded, ?_⟩
              · intro p hp
                by_contra hne
                exact hrow ⟨p, hp, by simpa using hne⟩
              · intro v hv
                by_contra hne
                rw [List.any_eq_true] at hcnt
                exact hcnt ⟨v, List.mem_dedup.mpr hv, by simpa using hne⟩
  · rintro ⟨h7, hrow, htot, hded, hcnt⟩
    dsimp only
    rw [if_neg (by simp [h7]), if_neg ?_, if_neg (by simp [htot]), if_neg (by simp [hded]),
      if_neg ?_]
    · rw [List.any_eq_true]
      rintro ⟨v, hv, hne⟩
      exact absurd (hcnt v (List.mem_dedup.mp hv)) (by simpa using hne)
    · rw [List.any_eq_true]
      rintro ⟨p, hp, hne⟩
      exact absurd (hrow p hp) (by simpa using hne)

/-! ## Claim C7: move counter and replay round-trip -/

/-- `FlatBoard.remove_cards` never touches the move counter. -/
theorem removeCards_moves (b : FlatBoard) (cs : List Card) :
    ((b.removeCards cs).2).moves = b.moves := by
  unfold FlatBoard.removeCards
  split
  · rfl
  · split
    · rfl
    · split
      · rfl
      · rfl

/-- Every successful `play_move` adds exactly `draws + 1` to the move
counter. -/
theorem playMove_moves (b : FlatBoard) (m : Move) (b' : FlatBoard)
    (h : b.playMove m = (none, b')) : b'.moves = b.moves + m.draws + 1 := by
  obtain ⟨mt, d, cs⟩ := m
  unfold FlatBoard.playMove at h
  simp only [Move.mtype, Move.draws, Move.mcards] at h
  show b'.moves = b.moves + d + 1
  set b1 := (if d ≠ 0 then
      { b with stack := b.stack.draw d, moves := b.moves + d } else b) with hb1def
  have hb1 : b1.moves = b.moves + d := by
    rw [hb1def]
    split
    · rfl
    · omega
  clear hb1def
  cases mt
  case BoardMatch =>
    dsimp only at h
    rcases hrc : b1.removeCards cs with ⟨e, b2⟩
    rw [hrc] at h
    have hm2 : b2.moves = b1.moves := by
      have := removeCards_moves b1 cs
      rw [hrc] at this
      exact this
    cases e <;> dsimp only at h
    · simp only [Prod.mk.injEq] at h
      rw [← h.2]
      show b2.moves + 1 = b.moves + d + 1
      omega
    · simp at h
  case BoardStackMatch =>
    rcases cs with _ | ⟨c1, _ | ⟨c2, _ | ⟨c3, rest⟩⟩⟩ <;> dsimp only at h
    · simp at h
    · simp at h
    · split at h
      · simp at h
      · split at h
        · split at h
          · simp at h
          · rcases hsr : b1.stack.removeCards [c1] with e | st <;> rw [hsr] at h <;>
              dsimp only at h
            · simp at h
            · rcases hrc : FlatBoard.removeCards
                  { b1 with stack := st,
                            cardCounts := decCount b1.cardCounts c1.num } [c2] with ⟨e, b3⟩
              rw [hrc] at h
              have hm2 : b3.moves = b1.moves := by
                have := removeCards_moves
                  { b1 with stack := st,
                            cardCounts := decCount b1.cardCounts c1.num } [c2]
                rw [hrc] at this
                exact this
              cases e <;> dsimp only at h
              · simp only [Prod.mk.injEq] at h
                rw [← h.2]
                show b3.moves + 1 = b.moves + d + 1
                omega
              · simp at h
        · split at h
          · simp at h
          · rcases hsr : b1.stack.removeCards [c2] with e | st <;> rw [hsr] at h <;>
              dsimp only at h
            · simp at h
            · rcases hrc : FlatBoard.removeCards
                  { b1 with stack := st,
                            cardCounts := decCount b1.cardCounts c2.num } [c1] with ⟨e, b3⟩
              rw [hrc] at h
              have hm2 : b3.moves = b1.moves := by
                have := removeCards_moves
                  { b1 with stack := st,
                            cardCounts := decCount b1.cardCounts c2.num } [c1]
                rw [hrc] at this
                exact this
              cases e <;> dsimp only at h
              · simp only [Prod.mk.injEq] at h
                rw [← h.2]
                show b3.moves + 1 = b.moves + d + 1
                omega
              · simp at h
    · simp at h
  case StackMatch =>
    dsimp only at h
    rcases hsr : b1.stack.removeCards cs with e | st <;> rw [hsr] at h <;>
      dsimp only at h
    · simp at h
    · rcases cs with _ | ⟨c1, _ | ⟨c2, _ | ⟨c3, rest⟩⟩⟩ <;> dsimp only at h
      · simp at h
      · simp only [Prod.mk.injEq] at h
        rw [← h.2]
        show b1.moves + 1 = b.moves + d + 1
        omega
      · simp only [Prod.mk.injEq] at h
        rw [← h.2]
        show b1.moves + 1 = b.moves + d + 1
        omega
      · simp only [Prod.mk.injEq] at h
        rw [← h.2]
        show b1.moves + 1 = b.moves + d + 1
        omega

/-- Replaying a list of moves in order, stopping at the first failure
(`describe_solution` / a solution path replay applies each move through
`play_move`). -/
def replay (b : FlatBoard) : List Move → Option FlatBoard
  | [] => some b
  | m :: rest =>
    match b.playMove m with
    | (none, b') => replay b' rest
    | (some _, _) => none

theorem replay_moves (ms : List Move) (b b' : FlatBoard)
    (h : replay b ms = some b') :
    b'.moves = b.moves + ms.length + (ms.map Move.draws).sum := by
  induction ms generalizing b with
  | nil =>
    simp only [replay, Option.some.injEq] at h
    subst h
    simp
  | cons m rest ih =>
    unfold replay at h
    rcases hp : b.playMove m with ⟨e, b1⟩
    rw [hp] at h
    cases e <;> dsimp only at h
    · have h1 := playMove_moves b m b1 hp
      have h2 := ih b1 h
      simp only [List.length_cons, List.map_cons, List.sum_cons]
      omega
    · simp at h

/-- Claim C7: every successful `play_move` adds `drawsRequired + 1` to
the move counter, so replaying a full solution path from a fresh board
(move counter 0) ends with move counter = (number of moves) + (sum of all
draws required); if that replay ends on a cleared board, the board is
cleared with exactly that count. -/
theorem C7_counter_roundtrip :
    (∀ (b : FlatBoard) (m : Move) (b' : FlatBoard),
      b.playMove m = (none, b') → b'.moves = b.moves + m.draws + 1) ∧
    (∀ (b : FlatBoard) (ms : List Move) (b' : FlatBoard),
      b.moves = 0 → replay b ms = some b' →
      b'.moves = ms.length + (ms.map Move.draws).sum ∧
      (b'.completed = true → b'.completed = true ∧
        b'.moves = ms.length + (ms.map Move.draws).sum)) := by
  refine ⟨playMove_moves, fun b ms b' h0 hr => ?_⟩
  have := replay_moves ms b b' hr
  rw [h0] at this
  constructor
  · omega
  · intro hc
    exact ⟨hc, by omega⟩

/-- Concrete board for the C7 witness: full pyramid, two-card stack. -/
def wb0 : FlatBoard := mkFlatBoard
  [[1], [2, 3], [4, 5, 6], [7, 8, 9, 10], [11, 12, 13, 14, 15],
   [16, 17, 18, 19, 20, 21], [22, 23, 24, 25, 26, 27, 28]]
  [6, 7] true

/-- The zero-index stack pair (6, 7) of `wb0`, one draw required. -/
def wmv : Move :=
  (MoveType.StackMatch, 1,
   [{ num := 6, uid := 0, row := none, col := none },
    { num := 7, uid := 1, row := none, col := none }])

theorem C7_witness :
    wb0.moves = 0 ∧
    ((wb0.playMove wmv).2).moves = [wmv].length + ([wmv].map Move.draws).sum := by
  have hr : replay wb0 [wmv] = some ((wb0.playMove wmv).2) := rfl
  have h := C7_counter_roundtrip.2 wb0 [wmv] _ rfl hr
  exact ⟨rfl, h.1⟩

/-! ## Claim C1: rejected moves and state mutation -/

/-- The error strings of the library's own move-rejection exceptions
(`IllegalMove`, including the unrecognized-shape case).  `CardNotFound`
exists only in the `board.py` variant; `FlatBoard` signals every
rejection listed by the claim through `IllegalMove`. -/
def illegalMoveErrors : List String :=
  ["IllegalMove: Card is blocked by other cards",
   "IllegalMove: Unable to remove card, it is not visible from the stack",
   "IllegalMove: Unable to match a stack card that is not visible",
   "IllegalMove: Unmatched move"]

/-- Claim C1 as stated: every move rejected with one of the move errors
leaves the board exactly as it was. -/
def claimC1Stated : Prop :=
  ∀ (b : FlatBoard) (m : Move) (e : String) (b' : FlatBoard),
    b.playMove m = (some e, b') → e ∈ illegalMoveErrors → b' = b

/-- C1 is false on the code: a draw-requiring move advances the stack and
adds the draws to the move counter *before* any validation, so a rejected
`BoardMatch` with `draws = 1` (here: matching the blocked top card) raises
`IllegalMove` with the counter already incremented. -/
theorem C1_counterexample : ¬ claimC1Stated := by
  intro h
  have heq := h wb0 (MoveType.BoardMatch, 1, [wb0.cards.getD 0 defaultCard])
    "IllegalMove: Card is blocked by other cards"
    ((wb0.playMove (MoveType.BoardMatch, 1, [wb0.cards.getD 0 defaultCard])).2) rfl
    (by decide)
  have hm := congrArg FlatBoard.moves heq
  exact absurd hm (by decide)

/-- The first loop of `remove_cards` only ever raises `KeyError`. -/
theorem removeLoop_error (l : List Nat) (lf : Finset Nat) (comp : Bool)
    (cand : Finset Nat) (e : String)
    (h : (removeLoop l lf comp cand).1 = some e) : e = "KeyError" := by
  induction l generalizing lf comp cand with
  | nil => simp [removeLoop] at h
  | cons i rest ih =>
    unfold removeLoop at h
    split at h
    · exact ih _ _ _ h
    · dsimp only at h
      injection h with h1
      exact h1.symm

/-- A rejection of `remove_cards` that is not the `KeyError` of a
mid-loop `set.remove` leaves the board unchanged. -/
theorem removeCards_error_state (b : FlatBoard) (cs : List Card) (e : String)
    (b2 : FlatBoard) (h : b.removeCards cs = (some e, b2))
    (he : e ≠ "KeyError") : b2 = b := by
  unfold FlatBoard.removeCards at h
  split at h
  · simp only [Prod.mk.injEq] at h
    exact h.2.symm
  · rcases hmm : cs.mapM (fun c => b.cards.findIdx? fun x => x == c) with _ | idxs <;>
      rw [hmm] at h <;> dsimp only at h
    · simp only [Prod.mk.injEq] at h
      exact h.2.symm
    · rcases hrl : removeLoop idxs b.leafIdxs b.completed ∅ with ⟨oe, lf, comp, cand⟩
      rw [hrl] at h
      cases oe <;> dsimp only at h
      · simp at h
      · rename_i e0
        simp only [Prod.mk.injEq, Option.some.injEq] at h
        obtain ⟨he0, -⟩ := h
        have hk : e0 = "KeyError" :=
          removeLoop_error idxs b.leafIdxs b.completed ∅ e0 (by rw [hrl])
        exact absurd (he0 ▸ hk) he

/-- C1 amended: a rejected move leaves the board unchanged *provided* it
requires zero draws and is not a `BoardStackMatch` with exactly two cards
(whose board-side validation only runs after the stack card has been
removed).  Draw-requiring moves advance the stack and move counter before
any validation. -/
theorem C1_amended (b : FlatBoard) (m : Move) (e : String) (b' : FlatBoard)
    (hd : m.draws = 0)
    (hk : m.mtype = MoveType.BoardMatch ∨ m.mtype = MoveType.StackMatch ∨
      m.mcards.length ≠ 2)
    (he : e ∈ illegalMoveErrors)
    (h : b.playMove m = (some e, b')) : b' = b := by
  obtain ⟨mt, d, cs⟩ := m
  unfold FlatBoard.playMove at h
  simp only [Move.mtype, Move.draws, Move.mcards] at h hd hk
  subst hd
  rw [if_neg (by simp)] at h
  have heK : e ≠ "KeyError" := by
    intro hke
    subst hke
    simp [illegalMoveErrors] at he
  cases mt
  case BoardMatch =>
    dsimp only at h
    rcases hrc : b.removeCards cs with ⟨oe, b2⟩
    rw [hrc] at h
    cases oe <;> dsimp only at h
    · simp at h
    · rename_i e0
      simp only [Prod.mk.injEq, Option.some.injEq] at h
      obtain ⟨he0, hb2⟩ := h
      rw [← hb2]
      exact removeCards_error_state b cs e0 b2 hrc (by rw [he0]; exact heK)
  case StackMatch =>
    dsimp only at h
    rcases hsr : b.stack.removeCards cs with e0 | st <;> rw [hsr] at h <;>
      dsimp only at h
    · simp only [Prod.mk.injEq, Option.some.injEq] at h
      exact h.2.symm
    · rcases cs with _ | ⟨c1, _ | ⟨c2, _ | ⟨c3, rest⟩⟩⟩ <;> dsimp only at h
      · -- IndexError with the (unchanged) stack written back
        simp only [Prod.mk.injEq, Option.some.injEq] at h
        obtain ⟨he0, hb2⟩ := h
        subst he0
        simp [illegalMoveErrors] at he
      · simp at h
      · simp at h
      · simp at h
  case BoardStackMatch =>
    rcases cs with _ | ⟨c1, _ | ⟨c2, _ | ⟨c3, rest⟩⟩⟩ <;> dsimp only at h
    · simp only [Prod.mk.injEq, Option.some.injEq] at h
      exact h.2.symm
    · simp only [Prod.mk.injEq, Option.some.injEq] at h
      exact h.2.symm
    · rcases hk with hk | hk | hk
      · exact absurd hk (by simp)
      · exact absurd hk (by simp)
      · exact absurd rfl hk
    · simp only [Prod.mk.injEq, Option.some.injEq] at h
      exact h.2.symm

/-- Witness for the amended C1: the same illegal `BoardMatch` with zero
draws leaves the concrete board `wb0` untouched. -/
theorem C1_amended_witness :
    (wb0.playMove (MoveType.BoardMatch, 0, [wb0.cards.getD 0 defaultCard])).2 = wb0 :=
  C1_amended wb0 (MoveType.BoardMatch, 0, [wb0.cards.getD 0 defaultCard])
    "IllegalMove: Card is blocked by other cards" _
    rfl (Or.inl rfl) (by decide) rfl

/-! ## Claim C3: king priority -/

/-- Claim C3: whenever some current leaf is a king, `get_moves` returns
exactly one move — the zero-draw `BoardMatch` removing that king alone
(the king scan precedes every other rule and returns immediately). -/
theorem C3_king_priority (b : FlatBoard)
    (h : ∃ c ∈ b.leaves, c.num = 13) :
    ∃ k ∈ b.leaves, k.num = 13 ∧
      b.getMoves = .ok [(MoveType.BoardMatch, 0, [k])] := by
  have hf : (b.leaves.find? fun c => c.num == 13).isSome := by
    rw [List.find?_isSome]
    obtain ⟨c, hc, hn⟩ := h
    exact ⟨c, hc, by simp [hn]⟩
  obtain ⟨k, hk⟩ := Option.isSome_iff_exists.mp hf
  have hmem := List.mem_of_find?_eq_some hk
  have hp := List.find?_some hk
  refine ⟨k, hmem, by simpa using hp, ?_⟩
  unfold FlatBoard.getMoves
  dsimp only
  rw [hk]

/-- A king in the bottom row (the `test_board_get_moves_with_king`
fixture). -/
def kingBoard : FlatBoard := mkFlatBoard
  [[8],
   [7, 5],
   [12, 1, 4],
   [11, 7, 1, 6],
   [12, 3, 1, 12, 7],
   [6, 2, 10, 5, 5, 9],
   [13, 2, 10, 4, 2, 11, 3]]
  [6, 8, 11, 6, 8, 13, 13, 8, 10, 12, 3, 4,
   2, 11, 1, 7, 10, 9, 9, 4, 3, 13, 9, 5]
  true

theorem C3_witness :
    ∃ k ∈ kingBoard.leaves, k.num = 13 ∧
      kingBoard.getMoves = .ok [(MoveType.BoardMatch, 0, [k])] :=
  C3_king_priority kingBoard (by decide)

/-! ## Claim C6: bound pruning -/

/-- On every path (success or rejection) `play_move` leaves the move
counter at most `draws + 1` above its initial value. -/
theorem playMove_moves_le (b : FlatBoard) (m : Move) :
    ((b.playMove m).2).moves ≤ b.moves + m.draws + 1 := by
  obtain ⟨mt, d, cs⟩ := m
  unfold FlatBoard.playMove
  simp only [Move.mtype, Move.draws, Move.mcards]
  set b1 := (if d ≠ 0 then
      { b with stack := b.stack.draw d, moves := b.moves + d } else b) with hb1def
  have hb1 : b1.moves = b.moves + d := by
    rw [hb1def]
    split
    · rfl
    · omega
  clear hb1def
  cases mt <;> try dsimp only
  case BoardMatch =>
    rcases hrc : b1.removeCards cs with ⟨oe, b2⟩
    have h2 : b2.moves = b1.moves := by
      have := removeCards_moves b1 cs
      rw [hrc] at this
      exact this
    cases oe <;> try dsimp only <;> omega
  case BoardStackMatch =>
    rcases cs with _ | ⟨c1, _ | ⟨c2, _ | ⟨c3, rest⟩⟩⟩ <;> try dsimp only
    · omega
    · omega
    · split
      · dsimp only
        omega
      · split
        · split
          · dsimp only
            omega
          · rcases hsr : b1.stack.removeCards [c1] with e0 | st <;> try dsimp only
            · omega
            · rcases hrc : FlatBoard.removeCards
                  { b1 with stack := st,
                            cardCounts := decCount b1.cardCounts c1.num } [c2] with ⟨oe, b3⟩
              have h2 : b3.moves = b1.moves := by
                have := removeCards_moves
                  { b1 with stack := st,
                            cardCounts := decCount b1.cardCounts c1.num } [c2]
                rw [hrc] at this
                exact this
              cases oe <;> try dsimp only <;> omega
        · split
          · dsimp only
            omega
          · rcases hsr : b1.stack.removeCards [c2] with e0 | st <;> try dsimp only
            · omega
            · rcases hrc : FlatBoard.removeCards
                  { b1 with stack := st,
                            cardCounts := decCount b1.cardCounts c2.num } [c1] with ⟨oe, b3⟩
              have h2 : b3.moves = b1.moves := by
                have := removeCards_moves
                  { b1 with stack := st,
                            cardCounts := decCount b1.cardCounts c2.num } [c1]
                rw [hrc] at this
                exact this
              cases oe <;> try dsimp only <;> omega
    · omega
  case StackMatch =>
    rcases hsr : b1.stack.removeCards cs with e0 | st <;> try dsimp only
    · omega
    · rcases cs with _ | ⟨c1, _ | ⟨c2, _ | ⟨c3, rest⟩⟩⟩ <;> try dsimp only <;> omega

/-- Claim C6 as stated: every child the candidate loop pushes has
cumulative move count at most the known-minimum bound. -/
def claimC6Stated : Prop :=
  ∀ (bound maxMoves : Nat) (b : FlatBoard) (path : List Nat) (ms : List Move)
    (seen : List (Nat × List Nat × Nat × List Nat)),
    ∀ e ∈ (expandLoop bound maxMoves b path (sortMoves ms).enum 0 seen []).1,
      e.cost ≤ bound

/-- A board whose four bottom-row sixes each match the 7 on top of the
stack with zero draws.  With bound 0 every such child reaches count 1. -/
def cb6 : FlatBoard := mkFlatBoard
  [[1], [1, 1], [1, 2, 2], [2, 2, 3, 3], [3, 3, 4, 4, 4], [4, 5, 5, 5, 5, 8],
   [6, 6, 6, 6, 9, 9, 9]]
  [7, 4] true

/-- The candidate list of `cb6` (a successful `get_moves`). -/
def msC6 : List Move :=
  match cb6.getMoves with
  | .ok l => l
  | .error _ => []

/-- C6 is false on the code: the pruning check is
`move[1] + board.moves > known_min_moves`, which lets through candidates
whose *resulting* count is `bound + 1`.  On `cb6` with bound 0 the loop
pushes children with cumulative count 1 > 0. -/
theorem C6_counterexample : ¬ claimC6Stated := by
  intro h
  exact (by decide :
      ¬ ∀ e ∈ (expandLoop 0 2 cb6 [] (sortMoves msC6).enum 0 [] []).1, e.cost ≤ 0)
    (h 0 2 cb6 [] msC6 [])

/-- C6 amended: every pushed child has cumulative move count at most
`bound + 1` (the code skips a candidate only when `draws + moves` already
exceed the bound, so a child can land exactly one move above it). -/
theorem C6_amended (bound maxMoves : Nat) (b : FlatBoard) (path : List Nat)
    (l : List (Nat × Move)) (n : Nat)
    (seen : List (Nat × List Nat × Nat × List Nat)) (acc : List SimEntry) :
    ∀ e ∈ (expandLoop bound maxMoves b path l n seen acc).1,
      e ∈ acc ∨ e.cost ≤ bound + 1 := by
  induction l generalizing n seen acc with
  | nil =>
    intro e he
    simp only [expandLoop] at he
    exact Or.inl he
  | cons p rest ih =>
    intro e he
    obtain ⟨idx, mv⟩ := p
    unfold expandLoop at he
    split at he
    · exact Or.inl he
    · split at he
      · exact Or.inl he
      · rename_i hwidth hbound
        dsimp only at he
        split at he
        · exact ih _ _ _ e he
        · rcases ih _ _ _ e he with hin | hle
          · rcases List.mem_append.mp hin with h1 | h2
            · exact Or.inl h1
            · right
              simp only [List.mem_singleton] at h2
              subst h2
              have hms := playMove_moves_le b mv
              simp only [SimEntry.cost]
              omega
          · exact Or.inr hle

/-- Witness for the amended C6: every child pushed for `cb6` with bound 0
has cumulative count at most 1. -/
theorem C6_amended_witness :
    ((expandLoop 0 2 cb6 [] (sortMoves msC6).enum 0 [] []).1.all fun e =>
      decide (e.cost ≤ 0 + 1)) = true := by
  rw [List.all_eq_true]
  intro e he
  rcases C6_amended 0 2 cb6 [] (sortMoves msC6).enum 0 [] [] e he with hin | hle
  · simp at hin
  · simpa using hle

/-! ## Claim C4: bad-move filtering (modelled from the spec) -/

/-- Modelled from the spec: the blocked-by registry and the rule-6
bad-move filtering of `getLegalMoves` (spec sections 3 and 4.2) are
missing from the source snapshot — neither `flat_board.py::get_moves` nor
`board.py::get_moves` contains them; only
`tests/test_board.py::test_get_moves_doesnt_provide_obvious_bad_moves_deadlock`
and the spec reference that `Board` version (`blocked_by`, `_walk`).
A stack-internal candidate is flagged bad when either of its ranks has
exactly one remaining occurrence among the still-present board positions
(`present`) and that single board card is still blocked from leaf status
(it appears in the blocked-by registry). -/
def badStackMatch (b : FlatBoard) (present : Finset Nat) (m : Move) : Bool :=
  m.mcards.any fun c =>
    decide ((present.filter fun i => (b.cards.getD i defaultCard).num = c.num).card = 1 ∧
      ∃ i ∈ present.filter fun i => (b.cards.getD i defaultCard).num = c.num,
        i ∉ b.leafIdxs)

/-- Modelled from the spec: the general candidate set with rule-6
filtering — the accumulated table and board-stack candidates (`acc2`)
together with the stack-internal candidates that are not flagged bad. -/
def generalSetSpec (b : FlatBoard) (present : Finset Nat) (acc2 : List Move) : List Move :=
  ((b.stack.getStackMoves.filter fun m => !(badStackMatch b present m)).foldl
    addMoveIfNew acc2)

/-- Membership in an `addMoveIfNew` fold: either already accumulated or
one of the folded moves. -/
theorem mem_foldl_addMoveIfNew (l : List Move) (acc : List Move) (m : Move)
    (h : m ∈ l.foldl addMoveIfNew acc) : m ∈ acc ∨ m ∈ l := by
  induction l generalizing acc with
  | nil => exact Or.inl h
  | cons x xs ih =>
    simp only [List.foldl_cons] at h
    rcases ih _ h with hin | hl
    · unfold addMoveIfNew at hin
      split at hin
      · exact Or.inl hin
      · rcases List.mem_append.mp hin with h1 | h2
        · exact Or.inl h1
        · simp only [List.mem_singleton] at h2
          subst h2
          exact Or.inr (List.mem_cons_self _ _)
    · exact Or.inr (List.mem_cons_of_mem _ hl)

/-- Claim C4 (against the spec-modelled filtering): the general candidate
set contains no stack-internal candidate flagged bad. -/
theorem C4_no_bad_stack_moves (b : FlatBoard) (present : Finset Nat)
    (acc2 : List Move) (hacc : ∀ x ∈ acc2, x.mtype ≠ MoveType.StackMatch)
    (m : Move) (hm : m ∈ generalSetSpec b present acc2)
    (hsm : m.mtype = MoveType.StackMatch) :
    badStackMatch b present m = false := by
  unfold generalSetSpec at hm
  rcases mem_foldl_addMoveIfNew _ _ _ hm with hin | hl
  · exact absurd hsm (hacc m hin)
  · have := List.mem_filter.mp hl
    simpa using this.2

/-- Witness board for C4: a stack pair (6, 7) that the filter keeps when
no board occurrence constraint flags it. -/
def wbC4 : FlatBoard := mkFlatBoard
  [[1], [2, 3], [4, 5, 6], [7, 8, 9, 10], [11, 12, 13, 14, 15],
   [16, 17, 18, 19, 20, 21], [22, 23, 24, 25, 26, 27, 28]]
  [6, 7] true

theorem C4_witness :
    badStackMatch wbC4 ∅
      (MoveType.StackMatch, 1,
       [{ num := 6, uid := 0, row := none, col := none },
        { num := 7, uid := 1, row := none, col := none }]) = false :=
  C4_no_bad_stack_moves wbC4 ∅ []
    (by intro x hx; simp at hx)
    (MoveType.StackMatch, 1,
     [{ num := 6, uid := 0, row := none, col := none },
      { num := 7, uid := 1, row := none, col := none }])
    (by decide) rfl

/-! ## Claim C10: stack index safety -/

/-- The stack invariant: the visible index is in range, the trailing
empty sentinel is still the last element, and the card slots are
pairwise-distinct objects. -/
def StackInv (s : Stack) : Prop :=
  s.idx < s.cards.length ∧ s.cards.getLast? = some none ∧ s.cards.Nodup

/-- Reachable stack states: built by `from_ints` from a non-empty list,
then closed under `draw(n)` and `remove_cards` applied to distinct,
currently visible, non-sentinel cards. -/
inductive StackReach : Stack → Prop
  | base (ns : List Nat) (h : ns ≠ []) : StackReach (Stack.fromInts ns)
  | step_draw (s : Stack) (n : Nat) : StackReach s → StackReach (s.draw n)
  | step_remove (s : Stack) (cs : List Card) (s' : Stack) : StackReach s →
      cs.Nodup → (∀ c ∈ cs, s.peek = some c ∨ s.prev = some c) →
      s.removeCards cs = .ok s' → StackReach s'

theorem peek_getElem (s : Stack) (c : Card) (hlt : s.idx < s.cards.length)
    (hp : s.peek = some c) : s.cards[s.idx] = some c := by
  unfold Stack.peek at hp
  rw [List.getD_eq_getElem?_getD, List.getElem?_eq_getElem hlt] at hp
  simpa using hp

theorem prev_getElem (s : Stack) (c : Card) (hlt : s.idx < s.cards.length)
    (hp : s.prev = some c) : s.idx ≠ 0 ∧ s.cards.get ⟨s.idx - 1, by omega⟩ = some c := by
  unfold Stack.prev at hp
  split at hp
  · simp at hp
  · rename_i h0
    refine ⟨h0, ?_⟩
    rw [List.getD_eq_getElem?_getD, List.getElem?_eq_getElem (by omega)] at hp
    simpa using hp

/-- In a duplicate-free stack the erasure of a card found at a known
position is the erasure of that position. -/
theorem erase_at_pos (l : List (Option Card)) (c : Card) (i : Nat)
    (hnd : l.Nodup) (hi : i < l.length) (hc : l[i] = some c) :
    l.erase (some c) = l.eraseIdx i := by
  induction l generalizing i with
  | nil => simp at hi
  | cons x xs ih =>
    rcases i with _ | i
    · simp only [List.getElem_cons_zero] at hc
      subst hc
      simp [List.erase_cons_head]
    · simp only [List.getElem_cons_succ] at hc
      have hxmem : some c ∈ xs := hc ▸ List.getElem_mem (by simpa using hi)
      have hx : x ≠ some c := by
        intro hh
        subst hh
        exact (List.nodup_cons.mp hnd).1 hxmem
      rw [List.erase_cons_tail (by simpa using hx)]
      rw [List.eraseIdx_cons_succ]
      rw [ih i (List.nodup_cons.mp hnd).2 (by simpa using hi) hc]

/-- Effect of `removeOne` on a well-formed stack: removing the `peek`
card erases exactly position `idx` (index unchanged); removing the
`prev` card erases position `idx - 1` and shifts the index back. -/
theorem removeOne_desc (s : Stack) (c : Card) (hnd : s.cards.Nodup)
    (hlt : s.idx < s.cards.length) :
    (s.peek = some c →
      s.removeOne c = { cards := s.cards.eraseIdx s.idx, idx := s.idx }) ∧
    (s.prev = some c →
      s.removeOne c = { cards := s.cards.eraseIdx (s.idx - 1), idx := s.idx - 1 }) := by
  constructor
  · intro hp
    have hpc := peek_getElem s c hlt hp
    have hprev : s.prev ≠ some c := by
      intro hpr
      obtain ⟨h0, hprc⟩ := prev_getElem s c hlt hpr
      rw [List.get_eq_getElem] at hprc
      have : s.idx - 1 = s.idx := hnd.getElem_inj_iff.mp (hprc.trans hpc.symm)
      omega
    unfold Stack.removeOne
    rw [if_neg hprev]
    dsimp only
    rw [erase_at_pos s.cards c s.idx hnd hlt hpc]
  · intro hpr
    obtain ⟨h0, hprc⟩ := prev_getElem s c hlt hpr
    rw [List.get_eq_getElem] at hprc
    unfold Stack.removeOne
    rw [if_pos hpr]
    dsimp only
    rw [erase_at_pos s.cards c (s.idx - 1) hnd (by omega) hprc]

/-- Removing one visible non-sentinel card preserves the stack invariant
and keeps any other visible card visible. -/
theorem removeOne_inv (s : Stack) (c : Card) (hInv : StackInv s)
    (hvis : s.peek = some c ∨ s.prev = some c) :
    StackInv (s.removeOne c) ∧
    ∀ c2, c2 ≠ c → (s.peek = some c2 ∨ s.prev = some c2) →
      ((s.removeOne c).peek = some c2 ∨ (s.removeOne c).prev = some c2) := by
  obtain ⟨hlt, hlast, hnd⟩ := hInv
  have hE : s.cards[s.cards.length - 1]? = some none := by
    rw [← List.getLast?_eq_getElem?]
    exact hlast
  rcases hvis with hp | hpr
  · -- removing the peek card
    have hpc := peek_getElem s c hlt hp
    have hne_last : s.idx ≠ s.cards.length - 1 := by
      intro hh
      have h1 : s.cards[s.cards.length - 1]? = some (some c) := by
        rw [← hh, List.getElem?_eq_getElem hlt, hpc]
      rw [h1] at hE
      simp at hE
    have hdesc := (removeOne_desc s c hnd hlt).1 hp
    rw [hdesc]
    refine ⟨⟨?_, ?_, ?_⟩, ?_⟩
    · show s.idx < (s.cards.eraseIdx s.idx).length
      rw [List.length_eraseIdx_of_lt hlt]
      omega
    · show (s.cards.eraseIdx s.idx).getLast? = some none
      rw [List.getLast?_eq_getElem?]
      rw [List.length_eraseIdx_of_lt hlt]
      rw [List.getElem?_eraseIdx_of_ge _ _ _ (by omega)]
      have harith : s.cards.length - 1 - 1 + 1 = s.cards.length - 1 := by omega
      rw [harith]
      exact hE
    · exact (List.eraseIdx_sublist _ _).nodup hnd
    · intro c2 hne2 hv2
      rcases hv2 with hp2 | hpr2
      · have h12 : some c = some c2 := hp.symm.trans hp2
        exact absurd (Option.some.inj h12).symm hne2
      · obtain ⟨h0, hprc⟩ := prev_getElem s c2 hlt hpr2
        rw [List.get_eq_getElem] at hprc
        right
        unfold Stack.prev
        dsimp only
        rw [if_neg h0]
        rw [List.getD_eq_getElem?_getD]
        rw [List.getElem?_eraseIdx_of_lt _ _ _ (by omega)]
        rw [List.getElem?_eq_getElem (by omega), hprc]
        rfl
  · -- removing the prev card
    obtain ⟨h0, hprc⟩ := prev_getElem s c hlt hpr
    rw [List.get_eq_getElem] at hprc
    have hdesc := (removeOne_desc s c hnd hlt).2 hpr
    rw [hdesc]
    refine ⟨⟨?_, ?_, ?_⟩, ?_⟩
    · show s.idx - 1 < (s.cards.eraseIdx (s.idx - 1)).length
      rw [List.length_eraseIdx_of_lt (by omega)]
      omega
    · show (s.cards.eraseIdx (s.idx - 1)).getLast? = some none
      rw [List.getLast?_eq_getElem?]
      rw [List.length_eraseIdx_of_lt (by omega)]
      rw [List.getElem?_eraseIdx_of_ge _ _ _ (by omega)]
      have harith : s.cards.length - 1 - 1 + 1 = s.cards.length - 1 := by omega
      rw [harith]
      exact hE
    · exact (List.eraseIdx_sublist _ _).nodup hnd
    · intro c2 hne2 hv2
      rcases hv2 with hp2 | hpr2
      · have hpc2 := peek_getElem s c2 hlt hp2
        left
        unfold Stack.peek
        dsimp only
        rw [List.getD_eq_getElem?_getD]
        rw [List.getElem?_eraseIdx_of_ge _ _ _ (by omega)]
        have harith : s.idx - 1 + 1 = s.idx := by omega
        rw [harith]
        rw [List.getElem?_eq_getElem hlt, hpc2]
        rfl
      · have h12 : some c = some c2 := hpr.symm.trans hpr2
        exact absurd (Option.some.inj h12).symm hne2

/-- `remove_cards` on distinct visible cards preserves the invariant.
(With only two visible slots there can be at most two such cards.) -/
theorem removeCards_inv (s : Stack) (cs : List Card) (s' : Stack)
    (hInv : StackInv s) (hnd : cs.Nodup)
    (hvis : ∀ c ∈ cs, s.peek = some c ∨ s.prev = some c)
    (hok : s.removeCards cs = .ok s') : StackInv s' := by
  have hs' : s' = cs.foldl Stack.removeOne s := by
    unfold Stack.removeCards at hok
    split at hok
    · exact (Except.ok.inj hok).symm
    · exact absurd hok (by simp)
  subst hs'
  rcases cs with _ | ⟨c1, _ | ⟨c2, _ | ⟨c3, rest⟩⟩⟩
  · simpa using hInv
  · simp only [List.foldl_cons, List.foldl_nil]
    exact (removeOne_inv s c1 hInv (hvis c1 (by simp))).1
  · have h1 := removeOne_inv s c1 hInv (hvis c1 (by simp))
    have hne : c2 ≠ c1 := by
      simp only [List.nodup_cons, List.mem_singleton, List.not_mem_nil] at hnd
      intro hh
      exact hnd.1 hh.symm
    have hv2 := h1.2 c2 hne (hvis c2 (by simp))
    simp only [List.foldl_cons, List.foldl_nil]
    exact (removeOne_inv (s.removeOne c1) c2 h1.1 hv2).1
  · exfalso
    have hv1 := hvis c1 (by simp)
    have hv2 := hvis c2 (by simp)
    have hv3 := hvis c3 (by simp)
    simp only [List.nodup_cons, List.mem_cons, not_or] at hnd
    rcases hv1 with h1 | h1 <;> rcases hv2 with h2 | h2 <;> rcases hv3 with h3 | h3 <;>
      simp_all

/-- Every reachable stack satisfies the invariant. -/
theorem stackReach_inv (s : Stack) (h : StackReach s) : StackInv s := by
  induction h with
  | base ns hne =>
    refine ⟨?_, ?_, ?_⟩
    · show (Stack.fromInts ns).idx < (Stack.fromInts ns).cards.length
      unfold Stack.fromInts Stack.ofCards
      simp
    · show (Stack.fromInts ns).cards.getLast? = some none
      unfold Stack.fromInts Stack.ofCards
      dsimp only
      exact List.getLast?_concat _
    · show (Stack.fromInts ns).cards.Nodup
      unfold Stack.fromInts Stack.ofCards
      dsimp only
      have hn0 : (ns.enum.map fun p =>
          ({ num := p.2, uid := p.1, row := none, col := none } : Card)).Nodup := by
        apply List.Nodup.of_map Card.uid
        rw [List.map_map]
        exact List.nodup_enum_map_fst ns
      refine List.Nodup.append (hn0.map (Option.some_injective _)) (by simp) ?_
      intro a ha hb
      simp only [List.mem_singleton] at hb
      subst hb
      simp at ha
  | step_draw s n _ ih =>
    obtain ⟨hlt, hlast, hnd⟩ := ih
    refine ⟨?_, hlast, hnd⟩
    show (s.idx + n) % s.cards.length < s.cards.length
    exact Nat.mod_lt _ (by omega)
  | step_remove s cs s' _ hnd hvis hok ih =>
    exact removeCards_inv s cs s' ih hnd hvis hok

/-- Claim C10: in every reachable stack state the visible index satisfies
`0 ≤ idx < len(cards)` (so `peek` and `prev` never index out of range) and
the trailing empty sentinel is still the last element. -/
theorem C10_index_in_range (s : Stack) (h : StackReach s) :
    s.idx < s.cards.length ∧ s.cards.getLast? = some none :=
  ⟨(stackReach_inv s h).1, (stackReach_inv s h).2.1⟩

/-- Concrete reachable state for the C10 witness: build from [1,2,3],
draw twice, remove the visible 3. -/
def wS1 : Stack := (Stack.fromInts [1, 2, 3]).draw 2

def wS2 : Stack :=
  match wS1.removeCards [{ num := 3, uid := 2, row := none, col := none }] with
  | .ok x => x
  | .error _ => wS1

theorem C10_witness : wS2.idx < wS2.cards.length ∧ wS2.cards.getLast? = some none :=
  C10_index_in_range wS2
    (StackReach.step_remove wS1 [{ num := 3, uid := 2, row := none, col := none }] wS2
      (StackReach.step_draw _ 2 (StackReach.base [1, 2, 3] (by decide)))
      (by decide) (by decide) rfl)

/-! ## Claim C2: leaf-set invariant

The board never stores the set of removed positions; we track it as the
ghost set `R` and show that `remove_cards` maintains
`leaf_idxs = leavesOf R`. -/

/-- The mathematically defined leaf set for a set `R` of removed
positions: the positions still present none of whose blocking descendants
are present. -/
def leavesOf (R : Finset Nat) : Finset Nat :=
  (Finset.range 28).filter fun i => i ∉ R ∧ blockedByMap i ⊆ R

/-- A removal set is downward closed: a card can only have been removed
after all of its blockers. -/
def DownClosed (R : Finset Nat) : Prop :=
  ∀ i ∈ R, blockedByMap i ⊆ R

/-- The direct children of a position (the positions whose
`blocks_cards_map` entry names it). -/
def childrenOf (i : Nat) : Finset Nat :=
  (Finset.range 28).filter fun k => i ∈ parentCandidates k

/-- Descendant/ancestor tables are converses of each other. -/
theorem tbl_conv : ∀ p ∈ Finset.range 28, ∀ q ∈ Finset.range 28,
    (q ∈ blockedByMap p ↔ p ∈ blockersMap q) := by decide

/-- The descendant relation is transitive. -/
theorem tbl_trans : ∀ i ∈ Finset.range 28, ∀ d ∈ blockedByMap i,
    ∀ e ∈ blockedByMap d, e ∈ blockedByMap i := by decide

/-- The descendant relation is irreflexive. -/
theorem tbl_irrefl : ∀ i ∈ Finset.range 28, i ∉ blockedByMap i := by decide

/-- A direct parent is blocked by its child. -/
theorem tbl_parent : ∀ c ∈ Finset.range 28, ∀ p ∈ parentCandidates c,
    c ∈ blockedByMap p := by decide

/-- Descendants decompose through the direct children. -/
theorem tbl_children_decomp : ∀ i ∈ Finset.range 28,
    blockedByMap i = childrenOf i ∪ (childrenOf i).biUnion blockedByMap := by decide

/-- Ancestors decompose through the direct parents. -/
theorem tbl_parents_decomp : ∀ e ∈ Finset.range 28,
    blockersMap e = parentCandidates e ∪ (parentCandidates e).biUnion blockersMap := by
  decide

/-- All tables stay inside the 28 positions. -/
theorem tbl_range : ∀ i ∈ Finset.range 28,
    blockedByMap i ⊆ Finset.range 28 ∧ blockersMap i ⊆ Finset.range 28 ∧
    parentCandidates i ⊆ Finset.range 28 := by decide

/-- Successful `removeLoop` runs: the indexes are distinct members of the
leaf set, the leaf set loses exactly them, and the candidates are the
union of their blocked parents. -/
theorem removeLoop_ok (idxs : List Nat) :
    ∀ (lf : Finset Nat) (comp : Bool) (cand : Finset Nat) (lf1 : Finset Nat)
      (comp1 : Bool) (cand1 : Finset Nat),
      removeLoop idxs lf comp cand = (none, lf1, comp1, cand1) →
      idxs.Nodup ∧ (∀ i ∈ idxs, i ∈ lf) ∧
      lf1 = lf \ idxs.toFinset ∧
      cand1 = cand ∪ idxs.toFinset.biUnion parentCandidates := by
  induction idxs with
  | nil =>
    intro lf comp cand lf1 comp1 cand1 h
    unfold removeLoop at h
    have h2 : lf = lf1 := congrArg (fun p => p.2.1) h
    have h4 : cand = cand1 := congrArg (fun p => p.2.2.2) h
    exact ⟨List.nodup_nil, by simp, by simp [← h2], by simp [← h4]⟩
  | cons i rest ih =>
    intro lf comp cand lf1 comp1 cand1 h
    unfold removeLoop at h
    split at h
    · rename_i hmem
      obtain ⟨hnd, hsub, hlf, hcand⟩ :=
        ih (lf.erase i) (comp || i == 0) (cand ∪ parentCandidates i) lf1 comp1 cand1 h
      refine ⟨?_, ?_, ?_, ?_⟩
      · rw [List.nodup_cons]
        refine ⟨fun hin => ?_, hnd⟩
        exact (Finset.not_mem_erase i lf) (hsub i hin)
      · intro j hj
        rcases List.mem_cons.mp hj with rfl | hj
        · exact hmem
        · exact Finset.mem_of_mem_erase (hsub j hj)
      · rw [hlf]
        ext x
        simp only [Finset.mem_sdiff, Finset.mem_erase, List.toFinset_cons,
          Finset.mem_insert, List.mem_toFinset, not_or]
        tauto
      · rw [hcand]
        ext x
        simp only [Finset.mem_union, Finset.mem_biUnion, List.toFinset_cons,
          Finset.mem_insert, List.mem_toFinset]
        constructor
        · rintro ((hx | hx) | ⟨j, hj, hjp⟩)
          · exact Or.inl hx
          · exact Or.inr ⟨i, Or.inl rfl, hx⟩
          · exact Or.inr ⟨j, Or.inr hj, hjp⟩
        · rintro (hx | ⟨j, rfl | hj, hjp⟩)
          · exact Or.inl (Or.inl hx)
          · exact Or.inl (Or.inr hjp)
          · exact Or.inr ⟨j, hj, hjp⟩
    · simp at h

/-- The candidate loop of `remove_cards`: when no folded element blocks
another (which the `candidate_blockers` subtraction guarantees), the fold
adds exactly the candidates none of whose blockers survive in the base
leaf set — independently of the iteration order. -/
theorem candFold_mem (l : List Nat) :
    ∀ (base S : Finset Nat),
      (∀ q ∈ S, ∀ p ∈ l, q ∉ blockedByMap p) →
      (∀ p ∈ l, ∀ q ∈ l, q ∉ blockedByMap p) →
      ∀ x, x ∈ l.foldl
          (fun acc c => if blockedByMap c ∩ acc = ∅ then insert c acc else acc)
          (base ∪ S) ↔
        x ∈ base ∨ x ∈ S ∨ (x ∈ l ∧ blockedByMap x ∩ base = ∅) := by
  induction l with
  | nil =>
    intro base S _ _ x
    simp
  | cons p rest ih =>
    intro base S hS hpair x
    simp only [List.foldl_cons]
    have hSp : blockedByMap p ∩ S = ∅ := by
      ext q
      simp only [Finset.mem_inter, Finset.not_mem_empty, iff_false, not_and]
      intro hq hqS
      exact hS q hqS p (by simp) hq
    have hinter : blockedByMap p ∩ (base ∪ S) = blockedByMap p ∩ base := by
      rw [Finset.inter_union_distrib_left, hSp, Finset.union_empty]
    by_cases hb : blockedByMap p ∩ base = ∅
    · rw [if_pos (by rw [hinter, hb])]
      have hins : insert p (base ∪ S) = base ∪ insert p S := by
        ext y
        simp only [Finset.mem_insert, Finset.mem_union]
        tauto
      rw [hins]
      rw [ih base (insert p S)
        (by
          intro q hq p' hp'
          rcases Finset.mem_insert.mp hq with rfl | hq
          · exact hpair p' (by simp [hp']) q (by simp)
          · exact hS q hq p' (by simp [hp']))
        (fun a ha b hbm => hpair a (by simp [ha]) b (by simp [hbm])) x]
      simp only [Finset.mem_insert, List.mem_cons]
      constructor
      · rintro (hx | (rfl | hx) | ⟨hx, hcond⟩)
        · exact Or.inl hx
        · exact Or.inr (Or.inr ⟨Or.inl rfl, hb⟩)
        · exact Or.inr (Or.inl hx)
        · exact Or.inr (Or.inr ⟨Or.inr hx, hcond⟩)
      · rintro (hx | hx | ⟨rfl | hx, hcond⟩)
        · exact Or.inl hx
        · exact Or.inr (Or.inl (Or.inr hx))
        · exact Or.inr (Or.inl (Or.inl rfl))
        · exact Or.inr (Or.inr ⟨hx, hcond⟩)
    · rw [if_neg (by rw [hinter]; exact hb)]
      rw [ih base S
        (fun q hq p' hp' => hS q hq p' (by simp [hp']))
        (fun a ha b hbm => hpair a (by simp [ha]) b (by simp [hbm])) x]
      simp only [List.mem_cons]
      constructor
      · rintro (hx | hx | ⟨hx, hcond⟩)
        · exact Or.inl hx
        · exact Or.inr (Or.inl hx)
        · exact Or.inr (Or.inr ⟨Or.inr hx, hcond⟩)
      · rintro (hx | hx | ⟨rfl | hx, hcond⟩)
        · exact Or.inl hx
        · exact Or.inr (Or.inl hx)
        · exact absurd hcond hb
        · exact Or.inr (Or.inr ⟨hx, hcond⟩)

/-- Core correctness of the incremental leaf update of `remove_cards`:
starting from the exact leaf set of a downward-closed removal set `R` and
removing a list of current leaves, the erase loop plus the candidate loop
produce exactly the leaf set of `R` plus the removed cards. -/
theorem leafUpdate_correct (R : Finset Nat) (idxs : List Nat)
    (hDC : DownClosed R) (comp comp1 : Bool) (lf1 cand : Finset Nat)
    (hloop : removeLoop idxs (leavesOf R) comp ∅ = (none, lf1, comp1, cand)) :
    (ascList (cand \ cand.biUnion blockersMap)).foldl
      (fun l c => if blockedByMap c ∩ l = ∅ then insert c l else l) lf1
    = leavesOf (R ∪ idxs.toFinset) := by
  obtain ⟨hnd, hsub, hlf1, hcand⟩ := removeLoop_ok idxs _ _ _ _ _ _ hloop
  rw [Finset.empty_union] at hcand
  subst hlf1
  subst hcand
  set L := leavesOf R with hLdef
  set C := idxs.toFinset with hCdef
  set P := C.biUnion parentCandidates with hPdef
  set B := P.biUnion blockersMap with hBdef
  have hLm : ∀ (Rs : Finset Nat) (x : Nat),
      x ∈ leavesOf Rs ↔ x ∈ Finset.range 28 ∧ x ∉ Rs ∧ blockedByMap x ⊆ Rs := by
    intro Rs x
    unfold leavesOf
    rw [Finset.mem_filter]
  have hasc : ∀ (x : Nat) (s : Finset Nat), x ∈ ascList s ↔ x ∈ Finset.range 28 ∧ x ∈ s := by
    intro x s
    unfold ascList
    rw [List.mem_filter]
    simp [List.mem_range, Finset.mem_range]
  have hCsubL : ∀ c ∈ C, c ∈ L := fun c hc => hsub c (List.mem_toFinset.mp hc)
  have hCr : ∀ c ∈ C, c ∈ Finset.range 28 := fun c hc => ((hLm R c).mp (hCsubL c hc)).1
  have hCnR : ∀ c ∈ C, c ∉ R := fun c hc => ((hLm R c).mp (hCsubL c hc)).2.1
  have hCbb : ∀ c ∈ C, blockedByMap c ⊆ R := fun c hc => ((hLm R c).mp (hCsubL c hc)).2.2
  have hPr : ∀ p ∈ P, p ∈ Finset.range 28 := by
    intro p hp
    obtain ⟨c, hc, hpc⟩ := Finset.mem_biUnion.mp hp
    exact (tbl_range c (hCr c hc)).2.2 hpc
  have hPnR : ∀ p ∈ P, p ∉ R := by
    intro p hp hpR
    obtain ⟨c, hc, hpc⟩ := Finset.mem_biUnion.mp hp
    have hcp := tbl_parent c (hCr c hc) p hpc
    exact hCnR c hc (hDC p hpR hcp)
  have hCP : ∀ x ∈ C, x ∉ P := by
    intro x hx hxP
    obtain ⟨c, hc, hpc⟩ := Finset.mem_biUnion.mp hxP
    have hcp := tbl_parent c (hCr c hc) x hpc
    exact hCnR c hc (hCbb x hx hcp)
  have hpair : ∀ p ∈ ascList (P \ B), ∀ q ∈ ascList (P \ B), q ∉ blockedByMap p := by
    intro p hp q hq hqbb
    rw [hasc] at hp hq
    obtain ⟨hp28, hpD⟩ := hp
    obtain ⟨hq28, hqD⟩ := hq
    have hpB := (Finset.mem_sdiff.mp hpD).2
    have : p ∈ blockersMap q := (tbl_conv p hp28 q hq28).mp hqbb
    exact hpB (Finset.mem_biUnion.mpr ⟨q, (Finset.mem_sdiff.mp hqD).1, this⟩)
  ext x
  have hfold := candFold_mem (ascList (P \ B)) (L \ C) ∅ (by simp) hpair x
  rw [Finset.union_empty] at hfold
  rw [hfold]
  simp only [Finset.not_mem_empty, false_or]
  constructor
  · rintro (hx | ⟨hxD, hxcond⟩)
    · obtain ⟨hxL, hxC⟩ := Finset.mem_sdiff.mp hx
      obtain ⟨hx28, hxR, hxbb⟩ := (hLm R x).mp hxL
      refine (hLm _ x).mpr ⟨hx28, ?_, fun z hz => Finset.mem_union_left _ (hxbb hz)⟩
      rw [Finset.mem_union]
      push_neg
      exact ⟨hxR, hxC⟩
    · rw [hasc] at hxD
      obtain ⟨hx28, hxD⟩ := hxD
      obtain ⟨hxP, hxB⟩ := Finset.mem_sdiff.mp hxD
      have hxR : x ∉ R := hPnR x hxP
      have hxC : x ∉ C := fun hc => hCP x hc hxP
      refine (hLm _ x).mpr ⟨hx28, ?_, ?_⟩
      · rw [Finset.mem_union]
        push_neg
        exact ⟨hxR, hxC⟩
      · -- every descendant of x has been removed: strong induction on the
        -- size of the descendant set
        suffices hmain : ∀ n (d : Nat), (blockedByMap d).card < n →
            d ∈ blockedByMap x → d ∉ R ∪ C → False by
          intro d hd
          by_contra hdR'
          exact hmain ((blockedByMap d).card + 1) d (by omega) hd hdR'
        intro n
        induction n with
        | zero =>
          intro d hcard
          omega
        | succ n ih =>
          intro d hcard hd hdRC
          rw [Finset.mem_union] at hdRC
          push_neg at hdRC
          obtain ⟨hdR, hdC⟩ := hdRC
          have hd28 : d ∈ Finset.range 28 := (tbl_range x hx28).1 hd
          have hdL : d ∉ L := by
            intro hdL
            have : d ∈ blockedByMap x ∩ (L \ C) := by
              rw [Finset.mem_inter, Finset.mem_sdiff]
              exact ⟨hd, hdL, hdC⟩
            rw [hxcond] at this
            simp at this
          have hnsub : ¬ blockedByMap d ⊆ R := by
            intro hsubR
            exact hdL ((hLm R d).mpr ⟨hd28, hdR, hsubR⟩)
          obtain ⟨e, he, heR⟩ : ∃ e ∈ blockedByMap d, e ∉ R := by
            by_contra hno
            push_neg at hno
            exact hnsub hno
          have he28 : e ∈ Finset.range 28 := (tbl_range d hd28).1 he
          have hex : e ∈ blockedByMap x := tbl_trans x hx28 d hd e he
          by_cases heC : e ∈ C
          · have hdBl : d ∈ blockersMap e := (tbl_conv d hd28 e he28).mp he
            rw [tbl_parents_decomp e he28] at hdBl
            rcases Finset.mem_union.mp hdBl with hcase | hcase
            · have hdP : d ∈ P := Finset.mem_biUnion.mpr ⟨e, heC, hcase⟩
              have : x ∈ blockersMap d := (tbl_conv x hx28 d hd28).mp hd
              exact hxB (Finset.mem_biUnion.mpr ⟨d, hdP, this⟩)
            · obtain ⟨p, hpPar, hdBp⟩ := Finset.mem_biUnion.mp hcase
              have hpP : p ∈ P := Finset.mem_biUnion.mpr ⟨e, heC, hpPar⟩
              have hp28 : p ∈ Finset.range 28 := (tbl_range e he28).2.2 hpPar
              have hpbb : p ∈ blockedByMap d := (tbl_conv d hd28 p hp28).mpr hdBp
              have hpbbx : p ∈ blockedByMap x := tbl_trans x hx28 d hd p hpbb
              have : x ∈ blockersMap p := (tbl_conv x hx28 p hp28).mp hpbbx
              exact hxB (Finset.mem_biUnion.mpr ⟨p, hpP, this⟩)
          · have hcard2 : (blockedByMap e).card < (blockedByMap d).card := by
              apply Finset.card_lt_card
              rw [Finset.ssubset_def]
              constructor
              · intro z hz
                exact tbl_trans d hd28 e he z hz
              · intro hdsub
                exact tbl_irrefl e he28 (hdsub he)
            refine ih e (by omega) hex ?_
            rw [Finset.mem_union]
            push_neg
            exact ⟨heR, heC⟩
  · intro hx
    obtain ⟨hx28, hxRC, hxbb'⟩ := (hLm _ x).mp hx
    rw [Finset.mem_union] at hxRC
    push_neg at hxRC
    obtain ⟨hxR, hxC⟩ := hxRC
    by_cases hxL : x ∈ L
    · exact Or.inl (Finset.mem_sdiff.mpr ⟨hxL, hxC⟩)
    · right
      have hxP : x ∈ P := by
        obtain ⟨k, hk, hkR⟩ : ∃ k ∈ childrenOf x, k ∉ R := by
          by_contra hno
          push_neg at hno
          apply hxL
          refine (hLm R x).mpr ⟨hx28, hxR, ?_⟩
          rw [tbl_children_decomp x hx28]
          apply Finset.union_subset
          · exact fun k hk => hno k hk
          · intro z hz
            obtain ⟨k, hk, hzk⟩ := Finset.mem_biUnion.mp hz
            exact hDC k (hno k hk) hzk
        have hkbb : k ∈ blockedByMap x := by
          rw [tbl_children_decomp x hx28]
          exact Finset.mem_union_left _ hk
        have hkC : k ∈ C := by
          rcases Finset.mem_union.mp (hxbb' hkbb) with h | h
          · exact absurd h hkR
          · exact h
        exact Finset.mem_biUnion.mpr ⟨k, hkC, (Finset.mem_filter.mp hk).2⟩
      have hxB : x ∉ B := by
        intro hxB
        obtain ⟨p, hpP, hxBl⟩ := Finset.mem_biUnion.mp hxB
        have hp28 := hPr p hpP
        have hpbb : p ∈ blockedByMap x := (tbl_conv x hx28 p hp28).mpr hxBl
        rcases Finset.mem_union.mp (hxbb' hpbb) with h | h
        · exact hPnR p hpP h
        · exact hCP p h hpP
      refine ⟨(hasc x _).mpr ⟨hx28, Finset.mem_sdiff.mpr ⟨hxP, hxB⟩⟩, ?_⟩
      ext z
      simp only [Finset.mem_inter, Finset.mem_sdiff, Finset.not_mem_empty, iff_false,
        not_and]
      intro hzbb hzL hzC
      rcases Finset.mem_union.mp (hxbb' hzbb) with h | h
      · exact absurd h ((hLm R z).mp hzL).2.1
      · exact absurd h hzC

/-- A successful `mapM` over `Option` computes the same list as
`filterMap`. -/
theorem mapM_eq_filterMap {α β : Type} (f : α → Option β) (l : List α) (r : List β)
    (h : l.mapM f = some r) : l.filterMap f = r := by
  induction l generalizing r with
  | nil =>
    simp only [List.mapM_nil, pure, Option.some.injEq] at h
    simp [← h]
  | cons a l ih =>
    rw [List.mapM_cons] at h
    rcases hfa : f a with _ | b <;> rw [hfa] at h
    · simp at h
    · rcases hml : l.mapM f with _ | bs <;> rw [hml] at h
      · simp at h
      · simp only [Option.pure_def, Option.bind_eq_bind, Option.some_bind,
          Option.some.injEq] at h
        rw [List.filterMap_cons, hfa, ih bs hml]
        exact h ▸ rfl

/-- Successful `FlatBoard.remove_cards` preserves the leaf-set invariant:
the new leaf set is the mathematical leaf set of the enlarged removal
set. -/
theorem removeCards_leafIdxs (b : FlatBoard) (cs : List Card) (b' : FlatBoard)
    (R : Finset Nat) (hDC : DownClosed R) (hL : b.leafIdxs = leavesOf R)
    (h : b.removeCards cs = (none, b')) :
    ∃ idxs, cs.mapM (fun c => b.cards.findIdx? fun x => x == c) = some idxs ∧
      b'.leafIdxs = leavesOf (R ∪ idxs.toFinset) ∧
      DownClosed (R ∪ idxs.toFinset) := by
  unfold FlatBoard.removeCards at h
  split at h
  · simp at h
  · rcases hmm : cs.mapM (fun c => b.cards.findIdx? fun x => x == c) with _ | idxs <;>
      rw [hmm] at h <;> dsimp only at h
    · simp at h
    · rcases hrl : removeLoop idxs b.leafIdxs b.completed ∅ with ⟨oe, lf, comp, cand⟩
      rw [hrl] at h
      cases oe <;> dsimp only at h
      · simp only [Prod.mk.injEq] at h
        obtain ⟨-, hb'⟩ := h
        rw [hL] at hrl
        obtain ⟨hnd, hsub, -, -⟩ := removeLoop_ok idxs _ _ _ _ _ _ hrl
        have hfold := leafUpdate_correct R idxs hDC b.completed comp lf cand hrl
        refine ⟨idxs, rfl, ?_, ?_⟩
        · rw [← hb']
          exact hfold
        · intro i hi
          rcases Finset.mem_union.mp hi with hiR | hiC
          · exact fun z hz => Finset.mem_union_left _ (hDC i hiR hz)
          · have hiL := hsub i (List.mem_toFinset.mp hiC)
            have := (Finset.mem_filter.mp hiL).2.2
            exact fun z hz => Finset.mem_union_left _ (this hz)
      · simp at h

/-- The board positions (indexes into `cards`) removed from the table by
a move: a BoardMatch removes the indexes of its cards; a two-card
BoardStackMatch removes the index of its board-side card; stack-internal
moves remove no board position. -/
def moveRemovedIdxs (b : FlatBoard) (m : Move) : List Nat :=
  match m.mtype, m.mcards with
  | MoveType.BoardMatch, cs =>
    cs.filterMap fun c => b.cards.findIdx? fun x => x == c
  | MoveType.BoardStackMatch, [c1, c2] =>
    [if !c1.onBoard then c2 else c1].filterMap fun c =>
      b.cards.findIdx? fun x => x == c
  | _, _ => []

/-- Every successful `play_move` preserves the leaf-set invariant: if the
leaf set equals the mathematical leaf set of a downward-closed removal
set `R`, then afterwards it equals the mathematical leaf set of `R`
enlarged by the positions the move removed, and that enlarged set is
again downward closed. -/
theorem playMove_leafIdxs (b : FlatBoard) (m : Move) (b' : FlatBoard)
    (R : Finset Nat) (hDC : DownClosed R) (hL : b.leafIdxs = leavesOf R)
    (h : b.playMove m = (none, b')) :
    b'.leafIdxs = leavesOf (R ∪ (moveRemovedIdxs b m).toFinset) ∧
    DownClosed (R ∪ (moveRemovedIdxs b m).toFinset) := by
  obtain ⟨mt, d, cs⟩ := m
  unfold FlatBoard.playMove at h
  unfold moveRemovedIdxs
  simp only [Move.mtype, Move.draws, Move.mcards] at h ⊢
  set b1 := (if d ≠ 0 then
      { b with stack := b.stack.draw d, moves := b.moves + d } else b) with hb1def
  have hb1L : b1.leafIdxs = b.leafIdxs := by
    rw [hb1def]; split <;> rfl
  have hb1C : b1.cards = b.cards := by
    rw [hb1def]; split <;> rfl
  clear hb1def
  cases mt
  case BoardMatch =>
    dsimp only at h ⊢
    rcases hrc : b1.removeCards cs with ⟨e, b2⟩
    rw [hrc] at h
    cases e <;> dsimp only at h
    · simp only [Prod.mk.injEq] at h
      obtain ⟨-, hb'⟩ := h
      obtain ⟨idxs, hmapm, hleaf, hdc⟩ :=
        removeCards_leafIdxs b1 cs b2 R hDC (hb1L.trans hL) hrc
      have hfm := mapM_eq_filterMap _ cs idxs hmapm
      rw [hb1C] at hfm
      rw [hfm]
      have hb2 : b'.leafIdxs = b2.leafIdxs := by rw [← hb']
      exact ⟨hb2.trans hleaf, hdc⟩
    · simp at h
  case BoardStackMatch =>
    rcases cs with _ | ⟨c1, _ | ⟨c2, _ | ⟨c3, rest⟩⟩⟩ <;> dsimp only at h ⊢
    · simp at h
    · simp at h
    · split at h
      · simp at h
      · split at h
        · rename_i hsel
          split at h
          · simp at h
          · rcases hsr : b1.stack.removeCards [c1] with e | st <;> rw [hsr] at h <;>
              dsimp only at h
            · simp at h
            · rcases hrc : FlatBoard.removeCards
                  { b1 with stack := st,
                            cardCounts := decCount b1.cardCounts c1.num } [c2] with ⟨e, b3⟩
              rw [hrc] at h
              cases e <;> dsimp only at h
              · simp only [Prod.mk.injEq] at h
                obtain ⟨-, hb'⟩ := h
                obtain ⟨idxs, hmapm, hleaf, hdc⟩ :=
                  removeCards_leafIdxs
                    { b1 with stack := st,
                              cardCounts := decCount b1.cardCounts c1.num } [c2] b3 R hDC
                    (hb1L.trans hL) hrc
                have hfm := mapM_eq_filterMap _ [c2] idxs hmapm
                dsimp only at hfm
                rw [hb1C] at hfm
                rw [if_pos hsel, hfm]
                have hb3 : b'.leafIdxs = b3.leafIdxs := by rw [← hb']
                exact ⟨hb3.trans hleaf, hdc⟩
              · simp at h
        · rename_i hsel
          split at h
          · simp at h
          · rcases hsr : b1.stack.removeCards [c2] with e | st <;> rw [hsr] at h <;>
              dsimp only at h
            · simp at h
            · rcases hrc : FlatBoard.removeCards
                  { b1 with stack := st,
                            cardCounts := decCount b1.cardCounts c2.num } [c1] with ⟨e, b3⟩
              rw [hrc] at h
              cases e <;> dsimp only at h
              · simp only [Prod.mk.injEq] at h
                obtain ⟨-, hb'⟩ := h
                obtain ⟨idxs, hmapm, hleaf, hdc⟩ :=
                  removeCards_leafIdxs
                    { b1 with stack := st,
                              cardCounts := decCount b1.cardCounts c2.num } [c1] b3 R hDC
                    (hb1L.trans hL) hrc
                have hfm := mapM_eq_filterMap _ [c1] idxs hmapm
                dsimp only at hfm
                rw [hb1C] at hfm
                rw [if_neg hsel, hfm]
                have hb3 : b'.leafIdxs = b3.leafIdxs := by rw [← hb']
                exact ⟨hb3.trans hleaf, hdc⟩
              · simp at h
    · simp at h
  case StackMatch =>
    dsimp only at h ⊢
    simp only [List.toFinset_nil, Finset.union_empty]
    rcases hsr : b1.stack.removeCards cs with e | st <;> rw [hsr] at h <;>
      dsimp only at h
    · simp at h
    · rcases cs with _ | ⟨c1, _ | ⟨c2, _ | ⟨c3, rest⟩⟩⟩ <;> dsimp only at h
      · simp at h
      · simp only [Prod.mk.injEq] at h
        obtain ⟨-, hb'⟩ := h
        have : b'.leafIdxs = b1.leafIdxs := by rw [← hb']
        exact ⟨this.trans (hb1L.trans hL), hDC⟩
      · simp only [Prod.mk.injEq] at h
        obtain ⟨-, hb'⟩ := h
        have : b'.leafIdxs = b1.leafIdxs := by rw [← hb']
        exact ⟨this.trans (hb1L.trans hL), hDC⟩
      · simp only [Prod.mk.injEq] at h
        obtain ⟨-, hb'⟩ := h
        have : b'.leafIdxs = b1.leafIdxs := by rw [← hb']
        exact ⟨this.trans (hb1L.trans hL), hDC⟩

/-- Reachable board states: a board paired with the set of positions
removed so far, starting from a freshly constructed board whose
configuration passes the constructor validation, following any sequence
of successful `play_move` calls. -/
inductive BoardReach : FlatBoard → Finset Nat → Prop where
  | base (rows : List (List Nat)) (stack : List Nat) (eh : Bool)
      (hv : validateBoard rows stack = Except.ok ()) :
      BoardReach (mkFlatBoard rows stack eh) ∅
  | step (b : FlatBoard) (R : Finset Nat) (m : Move) (b' : FlatBoard) :
      BoardReach b R → b.playMove m = (none, b') →
      BoardReach b' (R ∪ (moveRemovedIdxs b m).toFinset)

/-- Along every reachable state the removal set is downward closed and
the leaf set is its mathematical leaf set. -/
theorem boardReach_inv (b : FlatBoard) (R : Finset Nat) (h : BoardReach b R) :
    DownClosed R ∧ b.leafIdxs = leavesOf R := by
  induction h with
  | base rows stack eh hv =>
    refine ⟨fun i hi => absurd hi (Finset.not_mem_empty i), ?_⟩
    show ({21, 22, 23, 24, 25, 26, 27} : Finset Nat) = leavesOf ∅
    decide
  | step b R m b' hr hp ih =>
    obtain ⟨hDC, hL⟩ := ih
    obtain ⟨h1, h2⟩ := playMove_leafIdxs b m b' R hDC hL hp
    exact ⟨h2, h1⟩

/-- Claim C2: for every reachable board state (any sequence of successful
`play_move` calls from a validly constructed board), the leaf set equals
exactly the set of board positions that have not themselves been removed
and none of whose blocking descendants are still present; the invariant
holds after every `play_move`. -/
theorem C2_leaf_invariant (b : FlatBoard) (R : Finset Nat)
    (h : BoardReach b R) :
    b.leafIdxs = (Finset.range 28).filter
      fun i => i ∉ R ∧ ∀ j ∈ blockedByMap i, j ∈ R := by
  have := (boardReach_inv b R h).2
  rw [this]
  rfl

/-- The zero-draw BoardMatch removing the bottom-row king of
`kingBoard` (flat index 21). -/
def kmv : Move :=
  (MoveType.BoardMatch, 0,
   [{ num := 13, uid := 21, row := some 6, col := some 0 }])

def wbC2 : FlatBoard := (kingBoard.playMove kmv).2

theorem C2_witness :
    wbC2.leafIdxs = (Finset.range 28).filter
      (fun i => i ∉ ((∅ : Finset Nat) ∪ (moveRemovedIdxs kingBoard kmv).toFinset) ∧
        ∀ j ∈ blockedByMap i, j ∈ (∅ : Finset Nat) ∪ (moveRemovedIdxs kingBoard kmv).toFinset) :=
  C2_leaf_invariant wbC2 (∅ ∪ (moveRemovedIdxs kingBoard kmv).toFinset)
    (BoardReach.step kingBoard ∅ kmv wbC2
      (BoardReach.base _ _ _ (by rfl)) (by rfl))

/-! ## Claim C9: solver determinism -/

theorem listLtNat_asymm : ∀ as bs, listLtNat as bs = true → listLtNat bs as = true → False := by
  intro as
  induction as with
  | nil =>
    intro bs h1 h2
    cases bs with
    | nil => simp [listLtNat] at h1
    | cons b bs => simp [listLtNat] at h2
  | cons a as ih =>
    intro bs h1 h2
    cases bs with
    | nil => simp [listLtNat] at h1
    | cons b bs =>
      simp only [listLtNat, Bool.or_eq_true, Bool.and_eq_true, decide_eq_true_eq,
        beq_iff_eq] at h1 h2
      rcases h1 with h1 | ⟨he1, hr1⟩
      · rcases h2 with h2 | ⟨he2, hr2⟩
        · omega
        · omega
      · rcases h2 with h2 | ⟨he2, hr2⟩
        · omega
        · exact ih bs hr1 hr2

theorem listLtNat_conn : ∀ as bs : List Nat,
    listLtNat as bs = true ∨ listLtNat bs as = true ∨ as = bs := by
  intro as
  induction as with
  | nil =>
    intro bs
    cases bs with
    | nil => exact Or.inr (Or.inr rfl)
    | cons b bs => exact Or.inl (by simp [listLtNat])
  | cons a as ih =>
    intro bs
    cases bs with
    | nil => exact Or.inr (Or.inl (by simp [listLtNat]))
    | cons b bs =>
      rcases Nat.lt_trichotomy a b with h | h | h
      · exact Or.inl (by simp [listLtNat, h])
      · subst h
        rcases ih bs with hl | hl | hl
        · exact Or.inl (by simp [listLtNat, hl])
        · exact Or.inr (Or.inl (by simp [listLtNat, hl]))
        · subst hl
          exact Or.inr (Or.inr rfl)
      · exact Or.inr (Or.inl (by simp [listLtNat, h]))

theorem listLtNat_trans : ∀ as bs cs : List Nat, listLtNat as bs = true →
    listLtNat bs cs = true → listLtNat as cs = true := by
  intro as
  induction as with
  | nil =>
    intro bs cs h1 h2
    cases bs with
    | nil => simp [listLtNat] at h1
    | cons b bs =>
      cases cs with
      | nil => simp [listLtNat] at h2
      | cons c cs => simp [listLtNat]
  | cons a as ih =>
    intro bs cs h1 h2
    cases bs with
    | nil => simp [listLtNat] at h1
    | cons b bs =>
      cases cs with
      | nil => simp [listLtNat] at h2
      | cons c cs =>
        simp only [listLtNat, Bool.or_eq_true, Bool.and_eq_true, decide_eq_true_eq,
          beq_iff_eq] at h1 h2 ⊢
        rcases h1 with h1 | ⟨he1, hr1⟩
        · rcases h2 with h2 | ⟨he2, hr2⟩
          · exact Or.inl (by omega)
          · exact Or.inl (by omega)
        · rcases h2 with h2 | ⟨he2, hr2⟩
          · exact Or.inl (by omega)
          · exact Or.inr ⟨by omega, ih bs cs hr1 hr2⟩

/-- `keyLE` seen as a comparison of the two sort keys. -/
def pairLE (k1 k2 : Nat × List Nat) : Bool :=
  k1.1 < k2.1 || (k1.1 == k2.1 && (listLtNat k1.2 k2.2 || k1.2 == k2.2))

theorem keyLE_eq (a b : Move) : keyLE a b = pairLE (moveKey a) (moveKey b) := rfl

theorem pairLE_total (k1 k2 : Nat × List Nat) : pairLE k1 k2 = true ∨ pairLE k2 k1 = true := by
  obtain ⟨n1, l1⟩ := k1
  obtain ⟨n2, l2⟩ := k2
  simp only [pairLE, Bool.or_eq_true, Bool.and_eq_true, decide_eq_true_eq, beq_iff_eq]
  rcases Nat.lt_trichotomy n1 n2 with h | h | h
  · exact Or.inl (Or.inl h)
  · subst h
    rcases listLtNat_conn l1 l2 with hl | hl | hl
    · exact Or.inl (Or.inr ⟨rfl, Or.inl hl⟩)
    · exact Or.inr (Or.inr ⟨rfl, Or.inl hl⟩)
    · exact Or.inl (Or.inr ⟨rfl, Or.inr hl⟩)
  · exact Or.inr (Or.inl h)

theorem pairLE_trans (k1 k2 k3 : Nat × List Nat) (h1 : pairLE k1 k2 = true)
    (h2 : pairLE k2 k3 = true) : pairLE k1 k3 = true := by
  obtain ⟨n1, l1⟩ := k1
  obtain ⟨n2, l2⟩ := k2
  obtain ⟨n3, l3⟩ := k3
  simp only [pairLE, Bool.or_eq_true, Bool.and_eq_true, decide_eq_true_eq,
    beq_iff_eq] at h1 h2 ⊢
  rcases h1 with h1 | ⟨he1, hr1⟩
  · rcases h2 with h2 | ⟨he2, hr2⟩
    · exact Or.inl (by omega)
    · exact Or.inl (by omega)
  · rcases h2 with h2 | ⟨he2, hr2⟩
    · exact Or.inl (by omega)
    · refine Or.inr ⟨by omega, ?_⟩
      rcases hr1 with hr1 | hr1 <;> rcases hr2 with hr2 | hr2
      · exact Or.inl (listLtNat_trans l1 l2 l3 hr1 hr2)
      · exact Or.inl (hr2 ▸ hr1)
      · exact Or.inl (hr1 ▸ hr2)
      · exact Or.inr (hr1.trans hr2)

theorem pairLE_antisymm (k1 k2 : Nat × List Nat) (h1 : pairLE k1 k2 = true)
    (h2 : pairLE k2 k1 = true) : k1 = k2 := by
  obtain ⟨n1, l1⟩ := k1
  obtain ⟨n2, l2⟩ := k2
  simp only [pairLE, Bool.or_eq_true, Bool.and_eq_true, decide_eq_true_eq,
    beq_iff_eq] at h1 h2
  rcases h1 with h1 | ⟨he1, hr1⟩
  · rcases h2 with h2 | ⟨he2, hr2⟩
    · omega
    · omega
  · rcases h2 with h2 | ⟨he2, hr2⟩
    · omega
    · rcases hr1 with hr1 | hr1 <;> rcases hr2 with hr2 | hr2
      · exact (listLtNat_asymm l1 l2 hr1 hr2).elim
      · rw [he1, hr2]
      · rw [he1, hr1]
      · rw [he1, hr1]

theorem keyLE_total (a b : Move) : keyLE a b = true ∨ keyLE b a = true := by
  rw [keyLE_eq, keyLE_eq]
  exact pairLE_total _ _

theorem keyLE_trans (a b c : Move) (h1 : keyLE a b = true) (h2 : keyLE b c = true) :
    keyLE a c = true := by
  rw [keyLE_eq] at h1 h2 ⊢
  exact pairLE_trans _ _ _ h1 h2

theorem insertMove_perm (m : Move) : ∀ l, (insertMove m l).Perm (m :: l) := by
  intro l
  induction l with
  | nil => exact List.Perm.refl _
  | cons x xs ih =>
    unfold insertMove
    split
    · exact (List.Perm.cons x ih).trans (List.Perm.swap m x xs)
    · exact List.Perm.refl _

theorem sortMoves_perm_aux : ∀ (l acc : List Move),
    (l.foldl (fun acc m => insertMove m acc) acc).Perm (acc ++ l) := by
  intro l
  induction l with
  | nil => intro acc; simp
  | cons m rest ih =>
    intro acc
    show (rest.foldl (fun acc m => insertMove m acc) (insertMove m acc)).Perm (acc ++ m :: rest)
    refine (ih (insertMove m acc)).trans ?_
    refine ((insertMove_perm m acc).append_right rest).trans ?_
    exact List.perm_middle.symm

theorem sortMoves_perm (l : List Move) : (sortMoves l).Perm l := by
  have h := sortMoves_perm_aux l []
  simpa [sortMoves] using h

theorem insertMove_pairwise (m : Move) : ∀ l, l.Pairwise (fun a b => keyLE a b = true) →
    (insertMove m l).Pairwise (fun a b => keyLE a b = true) := by
  intro l
  induction l with
  | nil =>
    intro _
    simp [insertMove]
  | cons x xs ih =>
    intro hp
    rw [List.pairwise_cons] at hp
    obtain ⟨hx, hxs⟩ := hp
    unfold insertMove
    split
    · rename_i hxm
      rw [List.pairwise_cons]
      refine ⟨?_, ih hxs⟩
      intro y hy
      have hy2 := (insertMove_perm m xs).mem_iff.mp hy
      rcases List.mem_cons.mp hy2 with rfl | hy3
      · exact hxm
      · exact hx y hy3
    · rename_i hxm
      have hmx : keyLE m x = true := by
        rcases keyLE_total x m with h | h
        · exact absurd h hxm
        · exact h
      rw [List.pairwise_cons]
      constructor
      · intro y hy
        rcases List.mem_cons.mp hy with rfl | hy2
        · exact hmx
        · exact keyLE_trans m x y hmx (hx y hy2)
      · rw [List.pairwise_cons]
        exact ⟨hx, hxs⟩

theorem sortMoves_pairwise_aux : ∀ (l acc : List Move),
    acc.Pairwise (fun a b => keyLE a b = true) →
    (l.foldl (fun acc m => insertMove m acc) acc).Pairwise (fun a b => keyLE a b = true) := by
  intro l
  induction l with
  | nil => intro acc h; exact h
  | cons m rest ih => intro acc h; exact ih _ (insertMove_pairwise m acc h)

theorem sortMoves_pairwise (l : List Move) :
    (sortMoves l).Pairwise (fun a b => keyLE a b = true) :=
  sortMoves_pairwise_aux l [] List.Pairwise.nil

/-- Strict order on moves: key strictly below.  On candidate lists with
pairwise-distinct keys the stable sort is sorted for this relation. -/
def moveStrict (a b : Move) : Prop := keyLE a b = true ∧ moveKey a ≠ moveKey b

instance : IsAntisymm Move moveStrict := by
  constructor
  intro a b h1 h2
  refine absurd (pairLE_antisymm _ _ ?_ ?_) h1.2
  · rw [← keyLE_eq]
    exact h1.1
  · rw [← keyLE_eq]
    exact h2.1

theorem sortMoves_sorted_strict (l : List Move) (hdk : distinctKeys l = true) :
    (sortMoves l).Pairwise moveStrict := by
  have h1 := sortMoves_pairwise l
  have hperm := sortMoves_perm l
  have hnd : ((sortMoves l).map moveKey).Nodup := by
    have hl : (l.map moveKey).Nodup := of_decide_eq_true hdk
    exact ((hperm.map moveKey).nodup_iff).mpr hl
  have h2 : (sortMoves l).Pairwise (fun a b => moveKey a ≠ moveKey b) :=
    List.pairwise_map.mp hnd
  exact h1.and h2

/-- On a candidate list with pairwise-distinct sort keys, the stable sort
is invariant under any reordering of its input. -/
theorem sortMoves_eq_of_perm (l1 l2 : List Move) (hp : l1.Perm l2)
    (hdk : distinctKeys l2 = true) : sortMoves l1 = sortMoves l2 := by
  have hdk1 : distinctKeys l1 = true := by
    unfold distinctKeys at hdk ⊢
    exact decide_eq_true (((hp.map moveKey).nodup_iff).mpr (of_decide_eq_true hdk))
  have s1 := sortMoves_sorted_strict l1 hdk1
  have s2 := sortMoves_sorted_strict l2 hdk
  have hp2 : (sortMoves l1).Perm (sortMoves l2) :=
    (sortMoves_perm l1).trans (hp.trans (sortMoves_perm l2).symm)
  exact List.eq_of_perm_of_sorted hp2 s1 s2

/-- A model of Python set-iteration order: any function producing a
permutation of the canonical candidate list at each step. -/
def permOracle (oracle : Nat → List Move → List Move) : Prop :=
  ∀ step l, (oracle step l).Perm l

/-- When a run of the solver loop reports that every expanded candidate
list had pairwise-distinct sort keys, the run is independent of the
iteration order of the move sets. -/
theorem simulateLoop_det (bound tm ftm fg : Nat)
    (o1 o2 : Nat → List Move → List Move)
    (h1 : permOracle o1) (h2 : permOracle o2) :
    ∀ (fuel : Nat) (frontier : List SimEntry)
      (seen : List (Nat × List Nat × Nat × List Nat)) (step : Nat),
      (simulateLoop bound tm ftm fg o1 fuel frontier seen step).2 = true →
      simulateLoop bound tm ftm fg o1 fuel frontier seen step =
        simulateLoop bound tm ftm fg o2 fuel frontier seen step := by
  intro fuel
  induction fuel with
  | zero => intro frontier seen step _; rfl
  | succ fuel ih =>
    intro frontier seen step hflag
    rw [simulateLoop] at hflag ⊢
    rw [simulateLoop]
    rcases hpop : popMin frontier with _ | ⟨e, rest⟩
    · rfl
    · rw [hpop] at hflag
      try dsimp only at hflag ⊢
      cases hcomp : e.board.completed
      · rw [hcomp] at hflag
        try dsimp only at hflag ⊢
        have hcf : ¬ (false = true) := Bool.false_ne_true
        rw [if_neg hcf] at hflag ⊢
        rw [if_neg hcf]
        rcases hgm : e.board.getMoves with err | canonical
        · rfl
        · rw [hgm] at hflag
          try dsimp only at hflag ⊢
          by_cases hcnil : canonical = []
          · subst hcnil
            have e1 : (sortMoves (o1 step [])).isEmpty = true := by
              rw [(h1 step []).eq_nil]
              rfl
            have e2 : (sortMoves (o2 step [])).isEmpty = true := by
              rw [(h2 step []).eq_nil]
              rfl
            rw [if_pos e1] at hflag ⊢
            rw [if_pos e2]
            exact ih rest seen (step + 1) hflag
          · have hlen1 : (sortMoves (o1 step canonical)).length = canonical.length :=
              ((sortMoves_perm _).trans (h1 step canonical)).length_eq
            have hlen2 : (sortMoves (o2 step canonical)).length = canonical.length :=
              ((sortMoves_perm _).trans (h2 step canonical)).length_eq
            have hne1 : ¬ ((sortMoves (o1 step canonical)).isEmpty = true) := by
              intro hco
              rw [List.isEmpty_iff] at hco
              apply hcnil
              rw [← List.length_eq_zero, ← hlen1, hco]
              rfl
            have hne2 : ¬ ((sortMoves (o2 step canonical)).isEmpty = true) := by
              intro hco
              rw [List.isEmpty_iff] at hco
              apply hcnil
              rw [← List.length_eq_zero, ← hlen2, hco]
              rfl
            rw [if_neg hne1] at hflag ⊢
            rw [if_neg hne2]
            try dsimp only at hflag ⊢
            simp only [Bool.and_eq_true] at hflag
            obtain ⟨hres1, hdk⟩ := hflag
            have hsm : sortMoves (o1 step canonical) = sortMoves (o2 step canonical) :=
              (sortMoves_eq_of_perm _ _ (h1 step canonical) hdk).trans
                (sortMoves_eq_of_perm _ _ (h2 step canonical) hdk).symm
            rw [hsm] at hres1 ⊢
            rw [ih (rest ++ (expandLoop bound (if e.board.moves ≤ fg then ftm else tm)
                  e.board e.path (sortMoves (o2 step canonical)).enum 0 seen []).1)
                ((expandLoop bound (if e.board.moves ≤ fg then ftm else tm)
                  e.board e.path (sortMoves (o2 step canonical)).enum 0 seen []).2)
                (step + 1) hres1]
      · rfl

/-- Claim C9 as stated: for a fixed board, fixed branch-width parameters
and fixed bound, the solver's resulting move-index path does not depend
on the iteration order of the move sets (i.e. any two runs agree). -/
def claimC9Stated : Prop :=
  ∀ (bound tm ftm fg fuel : Nat) (b : FlatBoard)
    (o1 o2 : Nat → List Move → List Move),
    permOracle o1 → permOracle o2 →
    (simulate bound tm ftm fg o1 fuel b).1 = (simulate bound tm ftm fg o2 fuel b).1

def c9c0 : Card := { num := 9, uid := 0, row := some 0, col := some 0 }

def c9c1 : Card := { num := 6, uid := 1, row := some 1, col := some 0 }

def c9c2 : Card := { num := 5, uid := 2, row := some 1, col := some 1 }

/-- A mid-game position: two leaves (a 6 and a 5), stack `[7, 7, 8, 4]`
with the second 7 visible on top and the first available via `prev`. -/
def c9Board : FlatBoard :=
  { cards := [c9c0, c9c1, c9c2]
    stack := (Stack.fromInts [7, 7, 8, 4]).draw 1
    leafIdxs := {1, 2}
    moves := 0
    completed := false
    cardCounts := fun k => if 1 ≤ k ∧ k ≤ 13 then 4 else 0
    errorHandle := true }

/-- Identity iteration order. -/
def oId : Nat → List Move → List Move := fun _ l => l

/-- Iteration order that reverses the first expanded move set. -/
def oRev : Nat → List Move → List Move := fun step l => if step = 0 then l.reverse else l

/-- Claim C9 is false as stated: on `c9Board` the two visible stack 7s
give two distinct `BoardStackMatch` candidates with identical sort keys
`(0, str([6 on board, 7 in stack]))`, so the stable sort cannot undo a
different set-iteration order; the run with the identity order returns
path [2, 1, 1] while the run expanding the first move set in reverse
returns [1, 1, 1]. -/
theorem C9_counterexample : ¬ claimC9Stated := by
  intro h
  have hp1 : permOracle oId := fun _ _ => List.Perm.refl _
  have hp2 : permOracle oRev := by
    intro step l
    unfold oRev
    split
    · exact l.reverse_perm
    · exact List.Perm.refl _
  have hc := h 10 2 3 5 8 c9Board oId oRev hp1 hp2
  revert hc
  decide

/-- Claim C9 amended: determinism holds whenever every candidate list the
run expands has pairwise-distinct sort keys `(draws, str(cards))`; the
solver reports this as the collision-free flag of the run.  Under that
flag the whole run — result and flag — is independent of the move-set
iteration order. -/
theorem C9_amended (bound tm ftm fg fuel : Nat) (b : FlatBoard)
    (o1 o2 : Nat → List Move → List Move)
    (h1 : permOracle o1) (h2 : permOracle o2)
    (hflag : (simulate bound tm ftm fg o1 fuel b).2 = true) :
    simulate bound tm ftm fg o1 fuel b = simulate bound tm ftm fg o2 fuel b :=
  simulateLoop_det bound tm ftm fg o1 o2 h1 h2 fuel [(0, [], b)] [] 0 hflag

theorem C9_amended_witness :
    permOracle oId ∧ permOracle oRev ∧
    (simulate 10 2 3 5 oId 1 kingBoard).2 = true ∧
    simulate 10 2 3 5 oId 1 kingBoard = simulate 10 2 3 5 oRev 1 kingBoard := by
  have hp1 : permOracle oId := fun _ _ => List.Perm.refl _
  have hp2 : permOracle oRev := by
    intro step l
    unfold oRev
    split
    · exact l.reverse_perm
    · exact List.Perm.refl _
  refine ⟨hp1, hp2, by decide, ?_⟩
  exact C9_amended 10 2 3 5 1 kingBoard oId oRev hp1 hp2 (by decide)
